import Mathlib

/-!
COS dynamic string (`CosStd/src/String_dyn.c`).

A shallow embedding of the dynamic string of the C Object System and a
verification of its storage management.

Conventions of the embedding.

* The three fields of a `StringDyn` are kept as natural numbers: `capacity`
  and `size` are the `U32` fields of the C structures (every C operation that
  can wrap is written with an explicit `% U32_MOD`), and `value` is the element
  offset `str->value - strf->_value` of the live view inside the allocation.
  The offset is never negative: the source subtracts from it only after a test
  or an enlargement that makes it large enough.
* The allocation `_value` is a map from element index to `Option Nat`, where
  `none` is an indeterminate byte (fresh from `malloc`/`realloc`).  A store
  outside the `capacity` elements of the allocation is undefined in C; here it
  is dropped, and a load from outside the allocation reads `none`.  The field
  arithmetic of the operation goes on unchanged, as it does on a real machine.
* `malloc` and `realloc` succeed whenever they are asked for at least one
  element.  `realloc(p, 0)` returns NULL or a block at the choice of the C
  library (glibc frees `p` and returns NULL); it arises in `gadjust` on an
  empty buffer of nonzero capacity, where the parameter `realloc0_null` tells
  which, and the source throws `ExBadAlloc` on NULL.  In `genlarge` it would
  need the `U32` capacity to wrap around to exactly 0, which every theorem
  about an enlargement excludes.
* `F64` is IEEE 754 binary64 with round to nearest, ties to even, restricted to
  the operations the source uses; signed zeros are not distinguished.
* A `String` argument is the list of its bytes, its `size` the length of the
  list; an `Object` argument is the character code `gchr` returns for it.
* `Range_index` and the slice descriptors come from headers outside the
  source file; they are modelled from the specification and marked so.
* `COS_CONTRACT` tells whether the `PRE` and `POST` sections of a method are
  compiled in.  A `test_assert` inside a `BODY` or a plain function is always
  executed.
-/

namespace COS

/-! ## Machine integers -/

/-- Number of values of a `U32`. -/
def U32_MOD : Nat := 4294967296

/-- Smallest `I32`. -/
def I32_MIN : Int := -2147483648

/-- Largest `I32`. -/
def I32_MAX : Int := 2147483647

/-- Conversion of a character code to the `U8` element that is stored. -/
def toU8 (c : Int) : Nat := (c % 256).toNat

/-! ## Exceptions -/

/-- The ways a method can end other than by returning: one constructor per
`test_assert` message of the source, `undefined` for arithmetic the C standard
leaves undefined (negating `INT_MIN`, converting a NaN or an out of range
double to `I32`), `fuel` for a loop cut by the recursion bound of the model,
`ExBadAlloc` for the exception of that name. -/
inductive Err where
  | ExBadAlloc
  | negative_string_capacity
  | invalid_growing_factor
  | invalid_growing_size
  | unable_to_change_class
  | string_size_overflow
  | index_out_of_range
  | slice_out_of_range
  | slice_stride_not_1
  | capacity_lt_size
  | undefined
  | fuel
deriving DecidableEq

/-! ## Binary64 arithmetic -/

/-- A double: NaN, an infinity, or the finite value `(-1)^neg * m * 2^e`. -/
inductive F64 where
  | nan : F64
  | inf (neg : Bool) : F64
  | fin (neg : Bool) (m : Nat) (e : Int) : F64
deriving DecidableEq

namespace F64

/-- Halving count behind `log2`; the first argument bounds the recursion. -/
def log2Aux : Nat → Nat → Nat
  | 0, _ => 0
  | fuel + 1, m => if m < 2 then 0 else log2Aux fuel (m / 2) + 1

/-- Floor of the binary logarithm of a positive number. -/
def log2 (m : Nat) : Nat := log2Aux m m

/-- Rounding of the exact value `(-1)^neg * m * 2^e` to binary64, to nearest
with ties to even, overflowing to an infinity. -/
def round (neg : Bool) (m : Nat) (e : Int) : F64 :=
  if m = 0 then fin neg 0 0
  else
    let top : Int := (log2 m : Int) + e
    let qe : Int := max (top - 52) (-1074)
    let q : Nat :=
      if qe ≤ e then m * 2 ^ (e - qe).toNat
      else
        let s := (qe - e).toNat
        let q0 := m / 2 ^ s
        let r := m % 2 ^ s
        let half := 2 ^ (s - 1)
        if half < r ∨ (r = half ∧ q0 % 2 = 1) then q0 + 1 else q0
    if 971 < qe ∨ (qe = 971 ∧ 9007199254740992 ≤ q) then inf neg else fin neg q qe

/-- Conversion of a `U32` to double (exact). -/
def ofNat (n : Nat) : F64 := round false n 0

/-- Unary minus. -/
def neg : F64 → F64
  | nan => nan
  | inf s => inf (!s)
  | fin s m e => fin (!s) m e

/-- The signed integer `(-1)^s * m * 2^(e - k)`, for `k ≤ e`. -/
def scaled (s : Bool) (m : Nat) (e k : Int) : Int :=
  let a : Int := (m * 2 ^ (e - k).toNat : Nat)
  if s then -a else a

/-- Addition. -/
def add : F64 → F64 → F64
  | nan, _ => nan
  | _, nan => nan
  | inf s, inf t => if s = t then inf s else nan
  | inf s, fin _ _ _ => inf s
  | fin _ _ _, inf t => inf t
  | fin s m e, fin t n f =>
    let k := min e f
    let sum := scaled s m e k + scaled t n f k
    round (decide (sum < 0)) sum.natAbs k

/-- Subtraction. -/
def sub (x y : F64) : F64 := add x (neg y)

/-- Multiplication. -/
def mul : F64 → F64 → F64
  | nan, _ => nan
  | _, nan => nan
  | inf s, inf t => inf (xor s t)
  | inf s, fin t n _ => if n = 0 then nan else inf (xor s t)
  | fin s m _, inf t => if m = 0 then nan else inf (xor s t)
  | fin s m e, fin t n f => round (xor s t) (m * n) (e + f)

/-- Comparison `x < y`; false when an operand is NaN. -/
def lt : F64 → F64 → Bool
  | nan, _ => false
  | _, nan => false
  | inf s, inf t => s && !t
  | inf s, fin _ _ _ => s
  | fin _ _ _, inf t => !t
  | fin s m e, fin t n f =>
    let k := min e f
    decide (scaled s m e k < scaled t n f k)

/-- Conversion of a double to `I32`: the value truncated toward zero when that
is an `I32`, undefined otherwise. -/
def toI32 : F64 → Except Err Int
  | nan => .error .undefined
  | inf _ => .error .undefined
  | fin s m e =>
    let a : Nat := if 0 ≤ e then m * 2 ^ e.toNat else m / 2 ^ (-e).toNat
    let t : Int := if s then -(a : Int) else a
    if I32_MIN ≤ t ∧ t ≤ I32_MAX then .ok t else .error .undefined

end F64

/-- The double nearest to the literal `1.618034` (the golden ratio) of the
source: `0x1.9e3779e9d0e99p+0`. -/
def STRING_GROWTH_RATE : F64 := F64.fin false 7286977319472793 (-52)

/-! ## Memory -/

/-- Contents of an allocation, by element index; `none` is indeterminate. -/
abbrev Mem := Nat → Option Nat

/-- Read of element `i` of an allocation of `cap` elements. -/
def load (m : Mem) (cap i : Nat) : Option Nat := if i < cap then m i else none

/-- Write of `v` to element `k` of an allocation of `cap` elements. -/
def store (m : Mem) (cap k v : Nat) : Mem :=
  fun i => if i = k ∧ k < cap then some v else m i

/-- The C `memmove(dst, src, n)` inside an allocation of `cap` elements: the
`n` source elements are read first, then written. -/
def memmove (m : Mem) (cap dst src n : Nat) : Mem :=
  fun i => if dst ≤ i ∧ i < dst + n ∧ i < cap then load m cap (src + (i - dst)) else m i

/-- The C `memcpy(dst, xs, xs.length)` from the bytes `xs` of another string
into an allocation of `cap` elements. -/
def memcpy (m : Mem) (cap dst : Nat) (xs : List Nat) : Mem :=
  fun i => if dst ≤ i ∧ i < dst + xs.length ∧ i < cap then xs[i - dst]? else m i

/-- The C `malloc`: every element is indeterminate. -/
def malloc : Mem := fun _ => none

/-- The C `realloc` of an allocation of `old` elements to `new` elements: the
first `min old new` elements are kept, the others are indeterminate. -/
def realloc (m : Mem) (old new : Nat) : Mem :=
  fun i => if i < old ∧ i < new then m i else none

/-! ## The dynamic string -/

/-- State of a `StringDyn`: the allocation `strf->_value`, `strf->capacity`,
the offset `str->value - strf->_value` of the live view, and `str->size`. -/
structure StringDyn where
  _value : Mem
  capacity : Nat
  value : Nat
  size : Nat

/-- The live elements `str->value[0 .. str->size)`, in order. -/
def content (b : StringDyn) : List (Option Nat) :=
  (List.range b.size).map (fun k => load b._value b.capacity (b.value + k))

/-- The invariants of the data model: the capacity is a `U32` and the live
view lies inside the allocation, `view_offset + size ≤ capacity`. -/
def Inv (b : StringDyn) : Prop :=
  b.capacity < U32_MOD ∧ b.value + b.size ≤ b.capacity

instance (b : StringDyn) : Decidable (Inv b) := by
  unfold Inv
  infer_instance

/-- Modelled from the spec: the index normaliser `Range_index` of
`cos/Range.h`, which is not part of the sources at hand.  A negative index
counts from the end of a sequence of `size` elements; the result is a `U32`. -/
def Range_index (index : Int) (size : Nat) : Nat :=
  ((if index < 0 then index + (size : Int) else index) % (U32_MOD : Int)).toNat

/-- `ginitWith(StringDyn, Int)` (lines 74-94): a buffer of the given capacity, empty. -/
def ginitWith (n : Int) : Except Err StringDyn :=
  if n < 0 then .error .negative_string_capacity
  else .ok { _value := malloc, capacity := n.toNat, value := 0, size := 0 }

/-- `ginvariant(StringDyn)` (lines 109-115): the assertion `capacity >= size`. -/
def ginvariant (b : StringDyn) : Except Err Unit :=
  if b.capacity ≥ b.size then .ok () else .error .capacity_lt_size

/-- `genlarge(StringDyn, Int)` (lines 134-162): enlarge by `|v|` elements, at least 1024, at
the front when `v` is negative. -/
def genlarge_Int (COS_CONTRACT : Bool) (b : StringDyn) (v : Int) : Except Err StringDyn :=
  if COS_CONTRACT = true ∧ v = 0 then .error .invalid_growing_size
  else if v ≤ I32_MIN then .error .undefined
  else
    let front : Bool := decide (v < 0)
    let size : Int := if front then -v else v
    let size : Int := if size < 1024 then 1024 else size
    let capacity : Nat := (b.capacity + size.toNat) % U32_MOD
    let offset : Nat := b.value
    let _value : Mem := realloc b._value b.capacity capacity
    if front then
      .ok { _value := memmove _value capacity (offset + size.toNat) offset b.size,
            capacity := capacity, value := offset + size.toNat, size := b.size }
    else
      .ok { _value := _value, capacity := capacity, value := offset, size := b.size }

/-- `genlarge(StringDyn, Float)` (lines 119-132): enlarge by a factor, at the front when the
factor is negative. -/
def genlarge_Float (COS_CONTRACT : Bool) (b : StringDyn) (factor : F64) : Except Err StringDyn :=
  if COS_CONTRACT = true ∧
      ¬ (F64.lt factor (F64.neg (F64.ofNat 1)) = true ∨ F64.lt (F64.ofNat 1) factor = true) then
    .error .invalid_growing_factor
  else if F64.lt (F64.ofNat 1) factor = true then
    match F64.toI32 (F64.mul (F64.ofNat b.capacity) (F64.sub factor (F64.ofNat 1))) with
    | .ok v => genlarge_Int COS_CONTRACT b v
    | .error e => .error e
  else if F64.lt factor (F64.ofNat 1) = true then
    match F64.toI32 (F64.mul (F64.ofNat b.capacity) (F64.add factor (F64.ofNat 1))) with
    | .ok v => genlarge_Int COS_CONTRACT b v
    | .error e => .error e
  else .ok b

/-- `gadjust(StringDyn)` (lines 166-191): move the content to the base of the
allocation and shrink the allocation to the size; `ch_cls` is the result of
the class change `cos_object_changeClass` to `StringFix`, `realloc0_null`
tells whether the C library returns NULL for `realloc(p, 0)`, the call made
for an empty buffer of nonzero capacity (lines 181-183). -/
def gadjust (COS_CONTRACT ch_cls realloc0_null : Bool) (b : StringDyn) : Except Err StringDyn :=
  let b1 : StringDyn :=
    if b.value ≠ 0 then
      { b with _value := memmove b._value b.capacity 0 b.value b.size, value := 0 }
    else b
  let shrunk : Except Err StringDyn :=
    if b1.size ≠ b1.capacity then
      if realloc0_null = true ∧ b1.size = 0 then .error .ExBadAlloc
      else
        .ok { b1 with _value := realloc b1._value b1.capacity b1.size,
                      capacity := b1.size, value := 0 }
    else .ok b1
  match shrunk with
  | .error e => .error e
  | .ok b2 =>
    if COS_CONTRACT = true ∧ ch_cls = false then .error .unable_to_change_class else .ok b2

/-- `gclear(StringDyn)` (lines 195-198). -/
def gclear (b : StringDyn) : StringDyn := { b with size := 0, value := 0 }

/-- `gdropFirst(StringDyn)` (lines 202-209). -/
def gdropFirst (b : StringDyn) : StringDyn :=
  if b.size ≠ 0 then { b with size := b.size - 1, value := b.value + 1 } else b

/-- `gdropLast(StringDyn)` (lines 211-216). -/
def gdropLast (b : StringDyn) : StringDyn :=
  if b.size ≠ 0 then { b with size := b.size - 1 } else b

/-- `gdrop(StringDyn, Int)` (lines 218-229): drop `|v|` elements, at the front when `v` is
negative. -/
def gdrop (b : StringDyn) (v : Int) : Except Err StringDyn :=
  if v ≤ I32_MIN then .error .undefined
  else
    let front : Bool := decide (v < 0)
    let n : Nat := (if front then -v else v).toNat % U32_MOD
    let n : Nat := if n > b.size then b.size else n
    .ok { b with size := b.size - n, value := if front then b.value + n else b.value }

/-- The loop of `extra_size`: multiply the factor by the growth rate while
`capacity*(factor - 1.0) < size`; the first argument bounds the iterations. -/
def extra_size_loop (capacity size : Nat) : Nat → F64 → Option F64
  | 0, _ => none
  | fuel + 1, factor =>
    if F64.lt (F64.mul (F64.ofNat capacity) (F64.sub factor (F64.ofNat 1))) (F64.ofNat size) = true then
      extra_size_loop capacity size fuel (F64.mul factor STRING_GROWTH_RATE)
    else some factor

/-- `extra_size(capacity, size)` (lines 233-246): the growth policy.  The
factor does not depend on the arguments and is the infinity after 1474
multiplications, where the loop stops at the latest. -/
def extra_size (capacity size : Nat) : Except Err Nat :=
  match extra_size_loop capacity size 2048 STRING_GROWTH_RATE with
  | none => .error .fuel
  | some factor =>
    match F64.toI32 (F64.mul (F64.ofNat capacity) (F64.sub factor (F64.ofNat 1))) with
    | .error e => .error e
    | .ok extra =>
      if 0 < extra ∧ size < extra.toNat % U32_MOD then .ok extra.toNat
      else .error .string_size_overflow

/-- `gprepend(StringDyn, Char)` (lines 250-259). -/
def gprepend_Char (COS_CONTRACT : Bool) (b : StringDyn) (c : Int) : Except Err StringDyn :=
  let enlarged : Except Err StringDyn :=
    if b.value = 0 then
      match extra_size b.capacity 1 with
      | .ok e => genlarge_Int COS_CONTRACT b (-(e : Int))
      | .error e => .error e
    else .ok b
  match enlarged with
  | .error e => .error e
  | .ok b =>
    .ok { b with _value := store b._value b.capacity (b.value - 1) (toU8 c),
                 value := b.value - 1, size := (b.size + 1) % U32_MOD }

/-- `gappend(StringDyn, Char)` (lines 261-270). -/
def gappend_Char (COS_CONTRACT : Bool) (b : StringDyn) (c : Int) : Except Err StringDyn :=
  let enlarged : Except Err StringDyn :=
    if b.size = b.capacity then genlarge_Float COS_CONTRACT b STRING_GROWTH_RATE
    else .ok b
  match enlarged with
  | .error e => .error e
  | .ok b =>
    .ok { b with _value := store b._value b.capacity (b.value + b.size) (toU8 c),
                 size := (b.size + 1) % U32_MOD }

/-- `gprepend(StringDyn, Object)` (lines 274-283); `chr` is the code `gchr` gives for the
object. -/
def gprepend_Object (COS_CONTRACT : Bool) (b : StringDyn) (chr : Int) : Except Err StringDyn :=
  let enlarged : Except Err StringDyn :=
    if b.value = 0 then
      match extra_size b.capacity 1 with
      | .ok e => genlarge_Int COS_CONTRACT b (-(e : Int))
      | .error e => .error e
    else .ok b
  match enlarged with
  | .error e => .error e
  | .ok b =>
    .ok { b with _value := store b._value b.capacity (b.value - 1) (toU8 chr),
                 value := b.value - 1, size := (b.size + 1) % U32_MOD }

/-- `gappend(StringDyn, Object)` (lines 285-294); `chr` is the code `gchr` gives for the
object. -/
def gappend_Object (COS_CONTRACT : Bool) (b : StringDyn) (chr : Int) : Except Err StringDyn :=
  let enlarged : Except Err StringDyn :=
    if b.size = b.capacity then
      match extra_size b.capacity 1 with
      | .ok e => genlarge_Int COS_CONTRACT b (e : Int)
      | .error e => .error e
    else .ok b
  match enlarged with
  | .error e => .error e
  | .ok b =>
    .ok { b with _value := store b._value b.capacity (b.value + b.size) (toU8 chr),
                 size := (b.size + 1) % U32_MOD }

/-- `gprepend(StringDyn, String)` (lines 298-309); `other` is the byte sequence of the string
argument and `other.length` its size. -/
def gprepend_String (COS_CONTRACT : Bool) (b : StringDyn) (other : List Nat) : Except Err StringDyn :=
  let enlarged : Except Err StringDyn :=
    if b.value < other.length then
      match extra_size b.capacity other.length with
      | .ok e => genlarge_Int COS_CONTRACT b (-(e : Int))
      | .error e => .error e
    else .ok b
  match enlarged with
  | .error e => .error e
  | .ok b =>
    .ok { b with _value := memcpy b._value b.capacity (b.value - other.length) other,
                 value := b.value - other.length,
                 size := (b.size + other.length) % U32_MOD }

/-- `gappend(StringDyn, String)` (lines 311-321); `other` is the byte sequence of the string
argument and `other.length` its size. -/
def gappend_String (COS_CONTRACT : Bool) (b : StringDyn) (other : List Nat) : Except Err StringDyn :=
  let enlarged : Except Err StringDyn :=
    if b.value < other.length then
      match extra_size b.capacity other.length with
      | .ok e => genlarge_Int COS_CONTRACT b (e : Int)
      | .error e => .error e
    else .ok b
  match enlarged with
  | .error e => .error e
  | .ok b =>
    .ok { b with _value := memcpy b._value b.capacity (b.value + b.size) other,
                 size := (b.size + other.length) % U32_MOD }

/-- `ginsertAt(StringDyn, Int, Object)` (lines 325-347); `chr` is the code `gchr` gives for
the object. -/
def ginsertAt_Object (COS_CONTRACT : Bool) (b : StringDyn) (index chr : Int) : Except Err StringDyn :=
  let i : Nat := Range_index index b.size
  if COS_CONTRACT = true ∧ ¬ i ≤ b.size then .error .index_out_of_range
  else
    let enlarged : Except Err StringDyn :=
      if b.size = b.capacity then
        match extra_size b.capacity 1 with
        | .ok e => genlarge_Int COS_CONTRACT b (e : Int)
        | .error e => .error e
      else .ok b
    match enlarged with
    | .error e => .error e
    | .ok b =>
      let i : Nat := if COS_CONTRACT = true then i else Range_index index b.size
      let dst : Nat := b.value + i
      let moved : Mem :=
        memmove b._value b.capacity (dst + 1) dst ((b.size + U32_MOD - i) % U32_MOD)
      .ok { b with _value := store moved b.capacity dst (toU8 chr),
                   size := (b.size + 1) % U32_MOD }

/-- `ginsertAt(StringDyn, Int, String)` (lines 349-371); `other` is the byte sequence of the
string argument and `other.length` its size. -/
def ginsertAt_String (COS_CONTRACT : Bool) (b : StringDyn) (index : Int) (other : List Nat) :
    Except Err StringDyn :=
  let i : Nat := Range_index index b.size
  if COS_CONTRACT = true ∧ ¬ i ≤ b.size then .error .index_out_of_range
  else
    let enlarged : Except Err StringDyn :=
      if b.size = b.capacity then
        match extra_size b.capacity other.length with
        | .ok e => genlarge_Int COS_CONTRACT b (e : Int)
        | .error e => .error e
      else .ok b
    match enlarged with
    | .error e => .error e
    | .ok b =>
      let i : Nat := if COS_CONTRACT = true then i else Range_index index b.size
      let dst : Nat := b.value + i
      let moved : Mem :=
        memmove b._value b.capacity (dst + other.length) dst ((b.size + U32_MOD - i) % U32_MOD)
      .ok { b with _value := memcpy moved b.capacity dst other,
                   size := (b.size + other.length) % U32_MOD }

/-- `gremoveAt(StringDyn, Int)` (lines 375-393). -/
def gremoveAt_Int (COS_CONTRACT : Bool) (b : StringDyn) (index : Int) : Except Err StringDyn :=
  let i : Nat := Range_index index b.size
  if COS_CONTRACT = true ∧ ¬ i ≤ b.size then .error .index_out_of_range
  else
    let dst : Nat := b.value + i
    let size : Nat := (b.size + U32_MOD - 1) % U32_MOD
    .ok { b with _value := memmove b._value b.capacity dst (dst + 1) ((size + U32_MOD - i) % U32_MOD),
                 size := size }

/-- Modelled from the spec: the slice descriptor `(start, count, stride)` of
`cos/Slice.h`, which is not part of the sources at hand; `size` is the count. -/
structure Slice where
  start : Nat
  size : Nat
  stride : Int

/-- Modelled from the spec: `Slice_first`, the index of the first element. -/
def Slice_first (s : Slice) : Nat := s.start

/-- Modelled from the spec: `Slice_last`, the index of the last element,
`start + (count - 1) * stride` as a `U32`. -/
def Slice_last (s : Slice) : Nat :=
  (((s.start : Int) + ((s.size : Int) - 1) * s.stride) % (U32_MOD : Int)).toNat

/-- Modelled from the spec: `Slice_stride`. -/
def Slice_stride (s : Slice) : Int := s.stride

/-- Modelled from the spec: `Slice_size`, the count of elements. -/
def Slice_size (s : Slice) : Nat := s.size

/-- Modelled from the spec: `Slice_start`. -/
def Slice_start (s : Slice) : Nat := s.start

/-- `gremoveAt(StringDyn, Slice)` (lines 395-411). -/
def gremoveAt_Slice (COS_CONTRACT : Bool) (b : StringDyn) (s : Slice) : Except Err StringDyn :=
  if COS_CONTRACT = true ∧ ¬ (Slice_first s ≤ b.size ∧ Slice_last s ≤ b.size) then
    .error .slice_out_of_range
  else if COS_CONTRACT = true ∧ ¬ Slice_stride s ≠ 1 then .error .slice_stride_not_1
  else
    let size : Nat := Slice_size s % U32_MOD
    let i : Nat := Slice_start s % U32_MOD
    let dst : Nat := b.value + i
    let newsize : Nat := (b.size + U32_MOD - size) % U32_MOD
    .ok { b with _value := memmove b._value b.capacity dst (dst + size)
                             ((newsize + U32_MOD - i) % U32_MOD),
                 size := newsize }

/-- `gremoveAt(StringDyn, Range)` (lines 413-418); `slice` is the slice that
`Slice_fromRange` gives for the range normalised by `Range_normalize`, both
outside the sources at hand. -/
def gremoveAt_Range (COS_CONTRACT : Bool) (b : StringDyn) (slice : Slice) : Except Err StringDyn :=
  gremoveAt_Slice COS_CONTRACT b slice

/-! ## The operations in the words of the specification -/

/-- The drop of the specification: `k = min(|n|, size)` calls of `gdropFirst`
when `n` is negative, of `gdropLast` otherwise. -/
def drop_spec (b : StringDyn) (n : Int) : StringDyn :=
  if n < 0 then Nat.iterate gdropFirst (min n.natAbs b.size) b
  else Nat.iterate gdropLast (min n.natAbs b.size) b

/-- Search of the least `k`, from `k` on, with
`capacity*(g^k - 1) ≥ min_increment` for `g = 1618034/1000000` in exact
arithmetic; the first argument bounds the search. -/
def extra_spec_k (capacity min_increment : Nat) : Nat → Nat → Option Nat
  | 0, _ => none
  | fuel + 1, k =>
    if min_increment * 1000000 ^ k ≤ capacity * (1618034 ^ k - 1000000 ^ k) then some k
    else extra_spec_k capacity min_increment fuel (k + 1)

/-- The growth policy of the specification in exact arithmetic: with
`g = 1.618034` and `k` the least integer `≥ 1` with
`capacity*(g^k - 1) ≥ min_increment`, the value
`extra = trunc(capacity*(g^k - 1))` when `extra > 0` and
`extra > min_increment`; `none` stands for the assertion error (and for a
search that finds no `k`, which needs `capacity = 0`). -/
def extra_spec (capacity min_increment : Nat) : Option Nat :=
  match extra_spec_k capacity min_increment (2 * min_increment + 2) 1 with
  | none => none
  | some k =>
    let extra := capacity * (1618034 ^ k - 1000000 ^ k) / 1000000 ^ k
    if 0 < extra ∧ min_increment < extra then some extra else none

/-- The factor of `extra_size` after `k` turns of its loop: the power
`STRING_GROWTH_RATE^(k+1)` computed in binary64 by repeated multiplication. -/
def growth_factor : Nat → F64
  | 0 => STRING_GROWTH_RATE
  | k + 1 => F64.mul (growth_factor k) STRING_GROWTH_RATE

/-- The value `capacity*(factor - 1.0)` of `extra_size`, in binary64. -/
def grown (capacity : Nat) (factor : F64) : F64 :=
  F64.mul (F64.ofNat capacity) (F64.sub factor (F64.ofNat 1))

/-! ## Scenarios -/

/-- A single-element operation of a scenario. -/
inductive Op where
  | append (c : Int)
  | prepend (c : Int)

/-- One call of a scenario. -/
def step (COS_CONTRACT : Bool) (b : StringDyn) : Op → Except Err StringDyn
  | .append c => gappend_Char COS_CONTRACT b c
  | .prepend c => gprepend_Char COS_CONTRACT b c

/-- The calls of a scenario, in order; an exception ends the scenario. -/
def run (COS_CONTRACT : Bool) (b : StringDyn) : List Op → Except Err StringDyn
  | [] => .ok b
  | o :: os =>
    match step COS_CONTRACT b o with
    | .ok b1 => run COS_CONTRACT b1 os
    | .error e => .error e

/-- The characters `cs` prepended one at a time, first to last. -/
def prependAll (COS_CONTRACT : Bool) (b : StringDyn) : List Int → Except Err StringDyn
  | [] => .ok b
  | c :: cs =>
    match gprepend_Char COS_CONTRACT b c with
    | .ok b1 => prependAll COS_CONTRACT b1 cs
    | .error e => .error e

/-- Every call of `prependAll` returns and none wraps the `U32` capacity
around (a wrapped capacity is smaller than the one before). -/
def prependsOk (COS_CONTRACT : Bool) (b : StringDyn) : List Int → Bool
  | [] => true
  | c :: cs =>
    match gprepend_Char COS_CONTRACT b c with
    | .ok b1 => decide (b.capacity ≤ b1.capacity) && prependsOk COS_CONTRACT b1 cs
    | .error _ => false

/-! ## Auxiliary facts -/

theorem getElem?_content (b : StringDyn) (k : Nat) :
    (content b)[k]? =
      if k < b.size then some (load b._value b.capacity (b.value + k)) else none := by
  unfold content
  by_cases h : k < b.size
  · simp [h, List.getElem?_map, List.getElem?_range]
  · simp [h, List.getElem?_map]
    omega

/-- The amount `genlarge_Int` adds to the capacity. -/
theorem genlarge_Int_eq (ct : Bool) (b : StringDyn) (n : Int)
    (hn : ct = false ∨ n ≠ 0) (hmin : I32_MIN < n) :
    genlarge_Int ct b n =
      .ok (if n < 0 then
            { _value := memmove (realloc b._value b.capacity ((b.capacity + max n.natAbs 1024) % U32_MOD))
                ((b.capacity + max n.natAbs 1024) % U32_MOD) (b.value + max n.natAbs 1024) b.value b.size,
              capacity := (b.capacity + max n.natAbs 1024) % U32_MOD,
              value := b.value + max n.natAbs 1024, size := b.size }
          else
            { _value := realloc b._value b.capacity ((b.capacity + max n.natAbs 1024) % U32_MOD),
              capacity := (b.capacity + max n.natAbs 1024) % U32_MOD,
              value := b.value, size := b.size }) := by
  have h1 : ¬ (ct = true ∧ n = 0) := by
    rcases hn with h | h
    · simp [h]
    · simp [h]
  have h2 : ¬ n ≤ I32_MIN := not_le.mpr hmin
  unfold genlarge_Int
  rw [if_neg h1, if_neg h2]
  by_cases hneg : n < 0
  · have e1 : (if (-n) < 1024 then (1024 : Int) else -n).toNat = max n.natAbs 1024 := by
      split <;> omega
    simp only [hneg, decide_True, if_true, e1]
  · have e1 : (if n < 1024 then (1024 : Int) else n).toNat = max n.natAbs 1024 := by
      split <;> omega
    simp only [hneg, decide_False, if_false, e1, Bool.false_eq_true]

theorem load_realloc_grow (m : Mem) (old new i : Nat) (h : old ≤ new) :
    load (realloc m old new) new i = load m old i := by
  unfold load realloc
  by_cases h1 : i < old
  · have h2 : i < new := by omega
    simp [h1, h2]
  · simp [h1]

theorem load_store (m : Mem) (cap k v i : Nat) :
    load (store m cap k v) cap i = if i = k ∧ k < cap then some v else load m cap i := by
  unfold load store
  by_cases h1 : i < cap
  · simp [h1]
  · have : ¬ (i = k ∧ k < cap) := by omega
    simp [h1, this]

theorem load_memmove (m : Mem) (cap dst src n i : Nat) :
    load (memmove m cap dst src n) cap i =
      if dst ≤ i ∧ i < dst + n ∧ i < cap then load m cap (src + (i - dst)) else load m cap i := by
  unfold memmove
  by_cases h1 : i < cap
  · simp [load, h1]
  · have : ¬ (dst ≤ i ∧ i < dst + n ∧ i < cap) := by omega
    simp [load, h1]

theorem load_memcpy (m : Mem) (cap dst : Nat) (xs : List Nat) (i : Nat) :
    load (memcpy m cap dst xs) cap i =
      if dst ≤ i ∧ i < dst + xs.length ∧ i < cap then xs[i - dst]? else load m cap i := by
  unfold memcpy
  by_cases h1 : i < cap
  · simp [load, h1]
  · have : ¬ (dst ≤ i ∧ i < dst + xs.length ∧ i < cap) := by omega
    simp [load, h1]

theorem load_realloc_shrink (m : Mem) (old new i : Nat) (h : new ≤ old) :
    load (realloc m old new) new i = if i < new then load m old i else none := by
  unfold load realloc
  by_cases h1 : i < new
  · have h2 : i < old := by omega
    simp [h1, h2]
  · simp [h1]

theorem toI32_ok (x : F64) (t : Int) (h : F64.toI32 x = .ok t) : I32_MIN ≤ t ∧ t ≤ I32_MAX := by
  cases x with
  | nan => simp [F64.toI32] at h
  | inf s => simp [F64.toI32] at h
  | fin s m e =>
    simp only [F64.toI32] at h
    split_ifs at h <;> (cases h; assumption)

/-- What the assertion of `extra_size` guarantees of a returned value. -/
theorem extra_size_ok (cap n e : Nat) (h : extra_size cap n = .ok e) :
    n < e ∧ e ≤ 2147483647 := by
  unfold extra_size at h
  split at h
  · simp at h
  · split at h
    · simp at h
    · rename_i factor _ extra hx
      have hb := toI32_ok _ _ hx
      split at h
      · rename_i hc
        injection h with h
        obtain ⟨h0, h1⟩ := hc
        have h2 : extra.toNat < U32_MOD := by
          have := hb.2
          simp only [I32_MAX, U32_MOD] at *
          omega
        rw [Nat.mod_eq_of_lt h2] at h1
        have := hb.2
        simp only [I32_MAX] at this
        omega
      · simp at h

/-- A front enlargement by a value of `extra_size`. -/
theorem genlarge_Int_front (ct : Bool) (b : StringDyn) (e : Nat) (h0 : 0 < e)
    (he : e ≤ 2147483647) (hcap : b.capacity + max e 1024 < U32_MOD) :
    genlarge_Int ct b (-(e : Int)) =
      .ok { _value := memmove (realloc b._value b.capacity (b.capacity + max e 1024))
              (b.capacity + max e 1024) (b.value + max e 1024) b.value b.size,
            capacity := b.capacity + max e 1024,
            value := b.value + max e 1024, size := b.size } := by
  have hmin : I32_MIN < -(e : Int) := by
    simp only [I32_MIN]
    omega
  rw [genlarge_Int_eq ct b _ (Or.inr (by omega)) hmin]
  have hneg : -(e : Int) < 0 := by omega
  have habs : (-(e : Int)).natAbs = e := by omega
  simp only [hneg, if_true, habs, Nat.mod_eq_of_lt hcap]

/-- A back enlargement by a value of `extra_size`. -/
theorem genlarge_Int_back (ct : Bool) (b : StringDyn) (e : Nat) (h0 : 0 < e)
    (hcap : b.capacity + max e 1024 < U32_MOD) :
    genlarge_Int ct b (e : Int) =
      .ok { _value := realloc b._value b.capacity (b.capacity + max e 1024),
            capacity := b.capacity + max e 1024,
            value := b.value, size := b.size } := by
  have hmin : I32_MIN < (e : Int) := by
    simp only [I32_MIN]
    omega
  rw [genlarge_Int_eq ct b _ (Or.inr (by omega)) hmin]
  have hneg : ¬ (e : Int) < 0 := by omega
  have habs : (e : Int).natAbs = e := by omega
  simp only [hneg, if_false, habs, Nat.mod_eq_of_lt hcap]

theorem getElem?_map_some_append (xs : List Nat) (l : List (Option Nat)) (k : Nat) :
    (xs.map some ++ l)[k]? = if k < xs.length then some xs[k]? else l[k - xs.length]? := by
  by_cases h : k < xs.length
  · rw [List.getElem?_append_left (by simpa using h)]
    simp [h]
  · rw [List.getElem?_append_right (by simpa using h)]
    simp [h]

/-- An enlargement by a value of `extra_size` that leaves the capacity no
smaller has not wrapped the `U32` capacity around. -/
theorem enlarge_no_wrap (ct : Bool) (b b1 : StringDyn) (v : Int) (e : Nat)
    (hv : v = (e : Int) ∨ v = -(e : Int)) (h0 : 0 < e) (he : e ≤ 2147483647)
    (hu : b.capacity < U32_MOD) (h : genlarge_Int ct b v = .ok b1)
    (hcap : b.capacity ≤ b1.capacity) : b.capacity + max e 1024 < U32_MOD := by
  have hmin : I32_MIN < v := by
    simp only [I32_MIN]
    omega
  have habs : v.natAbs = e := by omega
  rw [genlarge_Int_eq ct b v (Or.inr (by omega)) hmin, habs] at h
  injection h with h
  subst h
  have hc : b.capacity ≤ (b.capacity + max e 1024) % U32_MOD := by
    split at hcap <;> exact hcap
  simp only [U32_MOD] at *
  omega

/-- The store and the field updates that end `gprepend` of one element. -/
theorem content_prepend_raw (b : StringDyn) (v : Nat) (hinv : Inv b) (hv : 0 < b.value) :
    Inv { b with _value := store b._value b.capacity (b.value - 1) v,
                 value := b.value - 1, size := (b.size + 1) % U32_MOD } ∧
    content { b with _value := store b._value b.capacity (b.value - 1) v,
                     value := b.value - 1, size := (b.size + 1) % U32_MOD } =
      some v :: content b := by
  obtain ⟨hu, hle⟩ := hinv
  have hsz : (b.size + 1) % U32_MOD = b.size + 1 := Nat.mod_eq_of_lt (by omega)
  rw [hsz]
  refine ⟨⟨hu, ?_⟩, ?_⟩
  · show b.value - 1 + (b.size + 1) ≤ b.capacity
    omega
  · apply List.ext_getElem?
    intro k
    rw [getElem?_content]
    simp only [load_store]
    cases k with
    | zero =>
      have h1 : b.value - 1 < b.capacity := by omega
      simp [h1]
    | succ j =>
      rw [List.getElem?_cons_succ, getElem?_content]
      have h1 : ¬ (b.value + j = b.value - 1 ∧ b.value - 1 < b.capacity) := by omega
      have h2 : b.value - 1 + (j + 1) = b.value + j := by omega
      simp only [h2, h1, if_false, Nat.add_lt_add_iff_right]

/-- A front enlargement by a value of `extra_size` keeps the invariants and
the content and moves the view by the growth of the capacity. -/
theorem genlarge_front_post (ct : Bool) (b : StringDyn) (e : Nat) (hinv : Inv b) (h0 : 0 < e)
    (he : e ≤ 2147483647) (hcap : b.capacity + max e 1024 < U32_MOD) :
    ∃ b1, genlarge_Int ct b (-(e : Int)) = .ok b1 ∧ Inv b1 ∧
      b1.capacity = b.capacity + max e 1024 ∧ b1.value = b.value + max e 1024 ∧
      b1.size = b.size ∧ content b1 = content b := by
  rw [genlarge_Int_front ct b e h0 he hcap]
  generalize max e 1024 = M at hcap
  obtain ⟨hu, hle⟩ := hinv
  refine ⟨_, rfl, ⟨hcap, ?_⟩, rfl, rfl, rfl, ?_⟩
  · show b.value + M + b.size ≤ b.capacity + M
    omega
  · apply List.ext_getElem?
    intro k
    rw [getElem?_content, getElem?_content]
    by_cases hk : k < b.size
    · have h2 : b.value + M + k < b.value + M + b.size := by omega
      have h3 : b.value + M + k < b.capacity + M := by omega
      have h4 : b.value + M + k - (b.value + M) = k := by omega
      have h5 : b.value + M ≤ b.value + M + k := by omega
      simp only [hk, if_true, load_memmove, h2, h3, h4, h5, and_self,
        load_realloc_grow _ _ _ _ (by omega : b.capacity ≤ b.capacity + M)]
    · simp only [hk, if_false]

/-- A back enlargement by a value of `extra_size` keeps the invariants, the
content and the view offset. -/
theorem genlarge_back_post (ct : Bool) (b : StringDyn) (e : Nat) (hinv : Inv b) (h0 : 0 < e)
    (hcap : b.capacity + max e 1024 < U32_MOD) :
    ∃ b1, genlarge_Int ct b (e : Int) = .ok b1 ∧ Inv b1 ∧
      b1.capacity = b.capacity + max e 1024 ∧ b1.value = b.value ∧
      b1.size = b.size ∧ content b1 = content b := by
  rw [genlarge_Int_back ct b e h0 hcap]
  generalize max e 1024 = M at hcap
  obtain ⟨hu, hle⟩ := hinv
  refine ⟨_, rfl, ⟨hcap, ?_⟩, rfl, rfl, rfl, ?_⟩
  · show b.value + b.size ≤ b.capacity + M
    omega
  · apply List.ext_getElem?
    intro k
    rw [getElem?_content, getElem?_content]
    by_cases hk : k < b.size
    · simp only [hk, if_true,
        load_realloc_grow _ _ _ _ (by omega : b.capacity ≤ b.capacity + M)]
    · simp only [hk, if_false]

/-- Effect of `gprepend` of one element on a buffer satisfying the invariants,
when the front enlargement (if one is needed) succeeds without overflow. -/
theorem gprepend_Char_post (ct : Bool) (b : StringDyn) (c : Int) (hinv : Inv b)
    (hg : b.value = 0 →
      ∃ e, extra_size b.capacity 1 = .ok e ∧ b.capacity + max e 1024 < U32_MOD) :
    ∃ b1, gprepend_Char ct b c = .ok b1 ∧ Inv b1 ∧
      content b1 = some (toU8 c) :: content b := by
  by_cases h : b.value = 0
  · obtain ⟨e, he, hcap⟩ := hg h
    obtain ⟨hne, he2⟩ := extra_size_ok _ _ _ he
    obtain ⟨be, hbe, hinv1, -, hval, -, hcont⟩ :=
      genlarge_front_post ct b e hinv (by omega) he2 hcap
    have hraw := content_prepend_raw be (toU8 c) hinv1 (by omega)
    unfold gprepend_Char
    simp only [h, if_true, he, hbe]
    exact ⟨_, rfl, hraw.1, by rw [hraw.2, hcont]⟩
  · unfold gprepend_Char
    simp only [h, if_false]
    exact ⟨_, rfl, content_prepend_raw b (toU8 c) hinv (by omega)⟩

/-- A call of `gprepend` of one element that returns with a capacity no
smaller has met the conditions of `gprepend_Char_post`. -/
theorem gprepend_Char_growth (ct : Bool) (b b1 : StringDyn) (c : Int) (hinv : Inv b)
    (h : gprepend_Char ct b c = .ok b1) (hcap : b.capacity ≤ b1.capacity) :
    b.value = 0 →
      ∃ e, extra_size b.capacity 1 = .ok e ∧ b.capacity + max e 1024 < U32_MOD := by
  intro hv
  unfold gprepend_Char at h
  simp only [hv, if_true] at h
  cases he : extra_size b.capacity 1 with
  | error x => simp [he] at h
  | ok e =>
    obtain ⟨hne, he2⟩ := extra_size_ok _ _ _ he
    simp only [he] at h
    cases hg : genlarge_Int ct b (-(e : Int)) with
    | error x => simp [hg] at h
    | ok b2 =>
      simp only [hg] at h
      injection h with h
      subst h
      exact ⟨e, rfl, enlarge_no_wrap ct b b2 _ e (Or.inr rfl) (by omega) he2 hinv.1 hg hcap⟩

theorem Range_index_nat (i s : Nat) (h : i < U32_MOD) : Range_index (i : Int) s = i := by
  unfold Range_index
  have h0 : ¬ (i : Int) < 0 := by omega
  simp only [h0, if_false]
  simp only [U32_MOD] at *
  omega

/-- The shift, the store and the field update that end `ginsertAt` of one
element, followed by `gremoveAt` at the same index, on a buffer with back
slack. -/
theorem insert_remove_raw (ct : Bool) (b : StringDyn) (i v : Nat) (hinv : Inv b)
    (hs : b.value + b.size < b.capacity) (hi : i ≤ b.size) :
    ∃ b2, gremoveAt_Int ct
        { b with _value := store (memmove b._value b.capacity (b.value + i + 1) (b.value + i)
                             ((b.size + U32_MOD - i) % U32_MOD)) b.capacity (b.value + i) v,
                 size := (b.size + 1) % U32_MOD } (i : Int) = .ok b2 ∧
      content b2 = content b ∧ b2.size = b.size := by
  obtain ⟨hu, hle⟩ := hinv
  have hsz : (b.size + 1) % U32_MOD = b.size + 1 := Nat.mod_eq_of_lt (by omega)
  have hsz2 : (b.size + 1 + U32_MOD - 1) % U32_MOD = b.size := by
    simp only [U32_MOD] at *
    omega
  have hn : (b.size + U32_MOD - i) % U32_MOD = b.size - i := by
    simp only [U32_MOD] at *
    omega
  have hri : Range_index (i : Int) (b.size + 1) = i := Range_index_nat i _ (by omega)
  have hpre : ¬ (ct = true ∧ ¬ i ≤ b.size + 1) := by
    intro h
    omega
  unfold gremoveAt_Int
  simp only [hsz, hsz2, hn, hri, if_neg hpre]
  refine ⟨_, rfl, ?_, rfl⟩
  apply List.ext_getElem?
  intro k
  rw [getElem?_content, getElem?_content]
  by_cases hk : k < b.size
  · simp only [hk, if_true, load_memmove, load_store]
    apply congrArg some
    by_cases hki : i ≤ k
    · have h1 : b.value + i ≤ b.value + k := by omega
      have h2 : b.value + k < b.value + i + (b.size - i) := by omega
      have h3 : b.value + k < b.capacity := by omega
      have h4 : b.value + i + 1 + (b.value + k - (b.value + i)) = b.value + k + 1 := by omega
      have h5 : ¬ (b.value + k + 1 = b.value + i ∧ b.value + i < b.capacity) := by omega
      have h6 : b.value + i + 1 ≤ b.value + k + 1 := by omega
      have h7 : b.value + k + 1 < b.value + i + 1 + (b.size - i) := by omega
      have h8 : b.value + k + 1 < b.capacity := by omega
      have h9 : b.value + i + (b.value + k + 1 - (b.value + i + 1)) = b.value + k := by omega
      simp only [h1, h2, h3, and_self, if_true, h4, h5, if_false, h6, h7, h8, h9]
    · have h1 : ¬ b.value + i ≤ b.value + k := by omega
      have h5 : ¬ (b.value + k = b.value + i ∧ b.value + i < b.capacity) := by omega
      have h6 : ¬ b.value + i + 1 ≤ b.value + k := by omega
      simp only [h1, false_and, if_false, h5, h6]
  · simp only [hk, if_false]

theorem run_append (ct : Bool) (l1 l2 : List Op) (b : StringDyn) :
    run ct b (l1 ++ l2) =
      match run ct b l1 with
      | .ok b1 => run ct b1 l2
      | .error e => .error e := by
  induction l1 generalizing b with
  | nil => rfl
  | cons o os ih =>
    simp only [List.cons_append, run]
    cases step ct b o with
    | error e => rfl
    | ok b1 => exact ih b1

theorem run_cons (ct : Bool) (o : Op) (os : List Op) (b : StringDyn) :
    run ct b (o :: os) =
      match step ct b o with
      | .ok b1 => run ct b1 os
      | .error e => .error e := rfl

/-- Fields after `gappend` of one element when `size != capacity`. -/
theorem gappend_Char_fields (ct : Bool) (b : StringDyn) (c : Int) (h : b.size ≠ b.capacity)
    (hs : b.size + 1 < U32_MOD) :
    ∃ b1, gappend_Char ct b c = .ok b1 ∧
      b1.capacity = b.capacity ∧ b1.value = b.value ∧ b1.size = b.size + 1 := by
  unfold gappend_Char
  simp only [if_neg h, Nat.mod_eq_of_lt hs]
  exact ⟨_, rfl, rfl, rfl, rfl⟩

/-- Fields after `gprepend` of one element when the view is not at the base
of the allocation. -/
theorem gprepend_Char_fields (ct : Bool) (b : StringDyn) (c : Int) (h : b.value ≠ 0)
    (hs : b.size + 1 < U32_MOD) :
    ∃ b1, gprepend_Char ct b c = .ok b1 ∧
      b1.capacity = b.capacity ∧ b1.value = b.value - 1 ∧ b1.size = b.size + 1 := by
  unfold gprepend_Char
  simp only [if_neg h, Nat.mod_eq_of_lt hs]
  exact ⟨_, rfl, rfl, rfl, rfl⟩

/-- Fields after `k` calls of `gappend` on a buffer whose size is at least `k`
below its capacity: none of them enlarges. -/
theorem run_replicate_append (ct : Bool) (c : Int) (k : Nat) (b : StringDyn)
    (h : b.size + k ≤ b.capacity) (hu : b.capacity < U32_MOD) :
    ∃ b1, run ct b (List.replicate k (Op.append c)) = .ok b1 ∧
      b1.capacity = b.capacity ∧ b1.value = b.value ∧ b1.size = b.size + k := by
  induction k generalizing b with
  | zero => exact ⟨b, rfl, rfl, rfl, rfl⟩
  | succ k ih =>
    obtain ⟨b1, h1, hc1, hv1, hs1⟩ := gappend_Char_fields ct b c (by omega) (by omega)
    obtain ⟨b2, h2, hc2, hv2, hs2⟩ := ih b1 (by omega) (by omega)
    refine ⟨b2, ?_, by omega, by omega, by omega⟩
    have e1 : step ct b (Op.append c) = .ok b1 := h1
    rw [List.replicate_succ, run_cons, e1]
    exact h2

/-- Fields after `gprepend` of one element on a buffer satisfying the
invariants whose view is at the base of the allocation, when the growth
policy returns `e` and the enlargement does not overflow. -/
theorem gprepend_Char_fields_enlarge (ct : Bool) (b : StringDyn) (c : Int) (e : Nat)
    (hinv : Inv b) (h : b.value = 0) (he : extra_size b.capacity 1 = .ok e)
    (hcap : b.capacity + max e 1024 < U32_MOD) :
    ∃ b1, gprepend_Char ct b c = .ok b1 ∧ Inv b1 ∧ b1.capacity = b.capacity + max e 1024 ∧
      b1.value = max e 1024 - 1 ∧ b1.size = b.size + 1 := by
  obtain ⟨b0, hb0, hinv0, -⟩ := gprepend_Char_post ct b c hinv (fun _ => ⟨e, he, hcap⟩)
  suffices hf : ∃ b1, gprepend_Char ct b c = .ok b1 ∧ b1.capacity = b.capacity + max e 1024 ∧
      b1.value = max e 1024 - 1 ∧ b1.size = b.size + 1 by
    obtain ⟨b1, hb1, hrest⟩ := hf
    rw [hb0] at hb1
    injection hb1 with hb1
    subst hb1
    exact ⟨b0, hb0, hinv0, hrest⟩
  obtain ⟨hne, he2⟩ := extra_size_ok _ _ _ he
  obtain ⟨be, hbe, hinv1, hc, hv, hs, -⟩ := genlarge_front_post ct b e hinv (by omega) he2 hcap
  obtain ⟨b1, hb1, hc1, hv1, hs1⟩ :=
    gprepend_Char_fields ct be c (by omega) (by have := hinv1.1; have := hinv1.2; omega)
  refine ⟨b1, ?_, by omega, by omega, by omega⟩
  rw [← hb1]
  unfold gprepend_Char
  simp only [h, if_true, he, hbe]
  have hne0 : be.value ≠ 0 := by omega
  simp only [if_neg hne0]

theorem prependsOk_cons (ct : Bool) (b b1 : StringDyn) (c : Int) (cs : List Int)
    (h : gprepend_Char ct b c = .ok b1) (hc : b.capacity ≤ b1.capacity)
    (hrest : prependsOk ct b1 cs = true) : prependsOk ct b (c :: cs) = true := by
  unfold prependsOk
  simp only [h, Bool.and_eq_true, decide_eq_true_eq]
  exact ⟨hc, hrest⟩

theorem prependAll_cons (ct : Bool) (b b1 : StringDyn) (c : Int) (cs : List Int)
    (h : gprepend_Char ct b c = .ok b1) : prependAll ct b (c :: cs) = prependAll ct b1 cs := by
  conv => lhs; unfold prependAll
  simp only [h]

/-- The calls of `prependAll` on a buffer satisfying the invariants whose view
offset is at least the number of elements: none of them enlarges. -/
theorem prependsOk_replicate (ct : Bool) (c : Int) (rest : List Int) (k : Nat) (b : StringDyn)
    (hinv : Inv b) (h : k ≤ b.value)
    (hrest : ∀ b1, Inv b1 → b1.capacity = b.capacity → b1.value = b.value - k →
      b1.size = b.size + k → prependsOk ct b1 rest = true) :
    prependsOk ct b (List.replicate k c ++ rest) = true := by
  induction k generalizing b with
  | zero => exact hrest b hinv rfl rfl rfl
  | succ k ih =>
    obtain ⟨b1, hb1, hc1, hv1, hs1⟩ :=
      gprepend_Char_fields ct b c (by omega) (by have := hinv.1; have := hinv.2; omega)
    obtain ⟨b1', hb1', hinv1, -⟩ := gprepend_Char_post ct b c hinv (fun h0 => by omega)
    rw [hb1] at hb1'
    injection hb1' with hb1'
    subst hb1'
    rw [List.replicate_succ, List.cons_append]
    refine prependsOk_cons ct b b1 c _ hb1 (by omega) (ih b1 hinv1 (by omega) ?_)
    intro b2 hinv2 hc2 hv2 hs2
    exact hrest b2 hinv2 (by omega) (by omega) (by omega)

/-- A repetition cut after its first element and after `m` more. -/
theorem replicate_split (a : Int) (m n : Nat) :
    List.replicate (m + n + 2) a = a :: (List.replicate m a ++ (a :: List.replicate n a)) := by
  have h : m + n + 2 = 1 + (m + (1 + n)) := by omega
  rw [h, List.replicate_add, List.replicate_add, List.replicate_add]
  rfl

set_option maxRecDepth 100000 in
/-- The growth policy at capacity 4. -/
theorem extra_size_4 : extra_size 4 1 = .ok 2 := by rfl

set_option maxRecDepth 100000 in
/-- The growth policy at capacity 1028. -/
theorem extra_size_1028 : extra_size 1028 1 = .ok 635 := by rfl

/-- On the empty buffer of capacity 4, 2000 calls of `gprepend` all return without
overflow of the capacity; the 1st and the 1025th enlarge the front. -/
theorem prependsOk_2000 :
    prependsOk true ⟨malloc, 4, 0, 0⟩ (List.replicate 2000 97) = true := by
  have hsplit : List.replicate 2000 (97 : Int) =
      97 :: (List.replicate 1023 97 ++ (97 :: (List.replicate 975 97 ++ []))) := by
    rw [List.append_nil]
    exact replicate_split 97 1023 975
  rw [hsplit]
  have hinv0 : Inv ⟨malloc, 4, 0, 0⟩ := by decide
  obtain ⟨b1, hb1, hinv1, hc1, hv1, hs1⟩ :=
    gprepend_Char_fields_enlarge true ⟨malloc, 4, 0, 0⟩ 97 2 hinv0 rfl extra_size_4 (by decide)
  have hc1' : b1.capacity = 1028 := hc1
  have hv1' : b1.value = 1023 := hv1
  refine prependsOk_cons true _ b1 97 _ hb1 (by rw [hc1']; decide) ?_
  refine prependsOk_replicate true 97 _ 1023 b1 hinv1 (by omega) ?_
  intro b2 hinv2 hc2 hv2 hs2
  have he2 : extra_size b2.capacity 1 = .ok 635 := by
    rw [hc2, hc1']
    exact extra_size_1028
  have hcap2 : b2.capacity + max 635 1024 < U32_MOD := by
    rw [hc2, hc1']
    decide
  obtain ⟨b3, hb3, hinv3, hc3, hv3, hs3⟩ :=
    gprepend_Char_fields_enlarge true b2 97 635 hinv2 (by omega) he2 hcap2
  refine prependsOk_cons true _ b3 97 _ hb3 (by omega) ?_
  have hv3' : b3.value = 1023 := hv3
  refine prependsOk_replicate true 97 _ 975 b3 hinv3 (by omega) ?_
  intro b4 _ _ _ _
  rfl

/-! ## C1: `capacity >= size` along scenarios of `gappend` and `gprepend` -/

set_option maxRecDepth 100000 in
/-- C1, failing scenario: on the buffer `ginitWith` makes for capacity 4, one
`gprepend`, 1027 `gappend` and one more `gprepend` all return, and the buffer
then has capacity 1028 and size 1029: `ginvariant` raises "dynamic string has
capacity < size". -/
theorem scenario_capacity_lt_size (ct : Bool) :
    ginitWith 4 = .ok ⟨malloc, 4, 0, 0⟩ ∧
    ∃ b, run ct ⟨malloc, 4, 0, 0⟩
        (Op.prepend 122 :: (List.replicate 1027 (Op.append 97) ++ [Op.prepend 122])) = .ok b ∧
      b.capacity = 1028 ∧ b.size = 1029 ∧ ginvariant b = .error .capacity_lt_size := by
  refine ⟨rfl, ?_⟩
  have h1 : ∃ b1, gprepend_Char ct ⟨malloc, 4, 0, 0⟩ 122 = .ok b1 ∧
      b1.capacity = 1028 ∧ b1.value = 1023 ∧ b1.size = 1 := by
    cases ct
    · exact ⟨_, rfl, rfl, rfl, rfl⟩
    · exact ⟨_, rfl, rfl, rfl, rfl⟩
  obtain ⟨b1, hb1, hc1, hv1, hs1⟩ := h1
  obtain ⟨b2, hb2, hc2, hv2, hs2⟩ :=
    run_replicate_append ct 97 1027 b1 (by omega) (by simp only [U32_MOD]; omega)
  obtain ⟨b3, hb3, hc3, hv3, hs3⟩ :=
    gprepend_Char_fields ct b2 122 (by omega) (by simp only [U32_MOD]; omega)
  refine ⟨b3, ?_, by omega, by omega, ?_⟩
  · have e1 : step ct ⟨malloc, 4, 0, 0⟩ (Op.prepend 122) = .ok b1 := hb1
    have e3 : run ct b2 [Op.prepend 122] = .ok b3 := by
      have e : step ct b2 (Op.prepend 122) = .ok b3 := hb3
      rw [run_cons, e]
      rfl
    rw [run_cons, e1]
    show run ct b1 (List.replicate 1027 (Op.append 97) ++ [Op.prepend 122]) = _
    rw [run_append, hb2]
    exact e3
  · have hlt : ¬ b3.capacity ≥ b3.size := by omega
    simp only [ginvariant, if_neg hlt]

/-! ## C2: the live view inside the allocation -/

/-- C2, failing input: `ginitWith(1)`, `gappend`, `gdropFirst` give a buffer of
capacity 1 with view offset 1 and size 0, which satisfies the invariants; the
next `gappend` does not enlarge (`size != capacity`), stores at element 1 of
an allocation of 1 element, and leaves `view_offset + size = 2 > capacity`. -/
theorem gappend_Char_outside_allocation :
    ginitWith 1 = .ok ⟨malloc, 1, 0, 0⟩ ∧
    ∃ b1, gappend_Char true ⟨malloc, 1, 0, 0⟩ 97 = .ok b1 ∧ Inv (gdropFirst b1) ∧
      ∃ b2, gappend_Char true (gdropFirst b1) 98 = .ok b2 ∧
        b2.capacity = 1 ∧ b2.value = 1 ∧ b2.size = 1 ∧ ¬ Inv b2 :=
  ⟨rfl, _, rfl, by decide, _, rfl, rfl, rfl, rfl, by decide⟩

/-! ## C3: `ginsertAt(StringDyn, Int, String)` and `capacity >= size` -/

/-- C3, failing input: "hello" inserted at index 0 of the empty buffer of
capacity 4: no enlargement takes place (`size != capacity`), the size becomes
5 with capacity 4, and `ginvariant` raises. -/
theorem ginsertAt_String_capacity_lt_size :
    ginitWith 4 = .ok ⟨malloc, 4, 0, 0⟩ ∧
    ginvariant ⟨malloc, 4, 0, 0⟩ = .ok () ∧
    ∃ b1, ginsertAt_String true ⟨malloc, 4, 0, 0⟩ 0 [104, 101, 108, 108, 111] = .ok b1 ∧
      b1.capacity = 4 ∧ b1.size = 5 ∧ ginvariant b1 = .error .capacity_lt_size :=
  ⟨rfl, rfl, _, rfl, rfl, rfl, rfl⟩

/-! ## C4: `genlarge(StringDyn, Int)` -/

/-- C4, counterexample: for the nonzero amount `INT_MIN` and a buffer of
capacity 0 (so that `capacity + |n|` fits a `U32`) the method does not enlarge
by `max(|n|, 1024)`: the negation `-self2->value` is undefined. -/
theorem genlarge_Int_INT_MIN_undefined :
    (0 : Nat) + max (-2147483648 : Int).natAbs 1024 < U32_MOD ∧
    ∀ ct : Bool, ¬ ∃ b, genlarge_Int ct ⟨malloc, 0, 0, 0⟩ (-2147483648) = .ok b := by
  refine ⟨by decide, ?_⟩
  intro ct ⟨b, hb⟩
  cases ct <;> simp [genlarge_Int, I32_MIN] at hb

/-- C4, amended: for every buffer and every nonzero amount `n` other than
`INT_MIN`, when `capacity + m` with `m = max(|n|, 1024)` fits a `U32`,
`genlarge` returns with capacity `capacity + m`, the size and the content
unchanged, the view offset unchanged when `n > 0` and increased by `m` when
`n < 0`. -/
theorem genlarge_Int_spec (ct : Bool) (b : StringDyn) (n : Int)
    (hn : n ≠ 0) (hmin : I32_MIN < n)
    (hcap : b.capacity + max n.natAbs 1024 < U32_MOD) :
    ∃ b1, genlarge_Int ct b n = .ok b1 ∧
      b1.capacity = b.capacity + max n.natAbs 1024 ∧
      b1.size = b.size ∧
      content b1 = content b ∧
      (0 < n → b1.value = b.value) ∧
      (n < 0 → b1.value = b.value + max n.natAbs 1024) := by
  rw [genlarge_Int_eq ct b n (Or.inr hn) hmin, Nat.mod_eq_of_lt hcap]
  refine ⟨_, rfl, ?_, ?_, ?_, ?_, ?_⟩
  · split <;> rfl
  · split <;> rfl
  · apply List.ext_getElem?
    intro k
    rw [getElem?_content, getElem?_content]
    by_cases hneg : n < 0
    · simp only [hneg, if_true]
      by_cases hk : k < b.size
      · simp only [hk, if_true]
        congr 1
        generalize max n.natAbs 1024 = M
        by_cases hc : b.value + M + k < b.capacity + M
        · have h3 : b.value + M ≤ b.value + M + k := by omega
          have h4 : b.value + M + k < b.value + M + b.size := by omega
          have h5 : b.value + M + k - (b.value + M) = k := by omega
          have h6 : b.value + k < b.capacity := by omega
          have h7 : b.value + k < b.capacity + M := by omega
          simp [load, memmove, realloc, hc, h3, h4, h5, h6, h7]
        · have h6 : ¬ b.value + k < b.capacity := by omega
          simp [load, hc, h6]
      · simp [hk]
    · simp only [hneg, if_false]
      by_cases hk : k < b.size
      · simp only [hk, if_true]
        rw [load_realloc_grow _ _ _ _ (by omega)]
      · simp [hk]
  · intro hpos
    have : ¬ n < 0 := by omega
    simp [this]
  · intro hneg
    simp [hneg]


/-- C4, witness: a front enlargement by 2 of a buffer of capacity 4. -/
theorem genlarge_Int_spec_witness :
    ∃ b1, genlarge_Int true ⟨malloc, 4, 0, 0⟩ (-2) = .ok b1 ∧
      b1.capacity = 4 + max (-2 : Int).natAbs 1024 ∧
      b1.size = 0 ∧
      content b1 = content ⟨malloc, 4, 0, 0⟩ ∧
      ((0 : Int) < -2 → b1.value = 0) ∧
      ((-2 : Int) < 0 → b1.value = 0 + max (-2 : Int).natAbs 1024) :=
  genlarge_Int_spec true ⟨malloc, 4, 0, 0⟩ (-2) (by decide) (by decide) (by decide)

/-! ## C5: `gadjust(StringDyn)` -/

/-- Effect of `gadjust` on a buffer satisfying the invariants when the class
change succeeds (or the `POST` section is compiled out) and no `realloc(p, 0)`
returns NULL: the library does not do so, or the buffer is not empty, or its
capacity already equals its size. -/
theorem gadjust_post (ct ch_cls rz : Bool) (b : StringDyn) (hinv : Inv b)
    (hcls : ct = false ∨ ch_cls = true)
    (hz : rz = false ∨ b.size ≠ 0 ∨ b.size = b.capacity) :
    ∃ b1, gadjust ct ch_cls rz b = .ok b1 ∧
      content b1 = content b ∧ b1.capacity = b1.size ∧ b1.value = 0 := by
  obtain ⟨-, hle⟩ := hinv
  have hpost : ¬ (ct = true ∧ ch_cls = false) := by
    rcases hcls with h | h <;> simp [h]
  by_cases hs : b.size = b.capacity
  · have hv : b.value = 0 := by omega
    have hg : gadjust ct ch_cls rz b = .ok b := by
      unfold gadjust
      simp only [hv, ne_eq, not_true_eq_false, if_false, hs, if_neg hpost]
    exact ⟨b, hg, rfl, hs.symm, hv⟩
  · have hnull : ¬ (rz = true ∧ b.size = 0) := by
      rcases hz with h | h | h
      · simp [h]
      · exact fun hh => h hh.2
      · exact absurd h hs
    by_cases hv : b.value = 0
    · have hg : gadjust ct ch_cls rz b =
          .ok { b with _value := realloc b._value b.capacity b.size,
                       capacity := b.size, value := 0 } := by
        unfold gadjust
        simp only [hv, ne_eq, not_true_eq_false, if_false, hs, not_false_eq_true, if_true,
          if_neg hnull, if_neg hpost]
      refine ⟨_, hg, ?_, rfl, rfl⟩
      apply List.ext_getElem?
      intro k
      rw [getElem?_content, getElem?_content]
      by_cases hk : k < b.size
      · have hk2 : k < b.capacity := by omega
        simp [hv, hk, load_realloc_shrink _ _ _ _ (by omega : b.size ≤ b.capacity)]
      · simp [hk]
    · have hg : gadjust ct ch_cls rz b =
          .ok { b with _value := realloc (memmove b._value b.capacity 0 b.value b.size)
                                   b.capacity b.size,
                       capacity := b.size, value := 0 } := by
        unfold gadjust
        simp only [ne_eq, hv, not_false_eq_true, if_true, hs, if_neg hnull, if_neg hpost]
      refine ⟨_, hg, ?_, rfl, rfl⟩
      apply List.ext_getElem?
      intro k
      rw [getElem?_content, getElem?_content]
      by_cases hk : k < b.size
      · have hk2 : k < b.capacity := by omega
        simp [hk, load_realloc_shrink _ _ _ _ (by omega : b.size ≤ b.capacity),
          load_memmove, hk2]
      · simp [hk]

/-- C5, failing input: on the empty buffer `ginitWith` makes for capacity 8,
which satisfies the invariants, and on the buffer "hi" after `gclear`, with a
C library whose `realloc(p, 0)` returns NULL, `gadjust` throws `ExBadAlloc`
(whatever the contracts and the class change) although no allocation has
failed; with a library that returns a block it ends with capacity and size 0.
On the buffer "hi" itself it returns with the content kept, capacity 2 and
view offset 0. -/
theorem gadjust_empty_ExBadAlloc :
    ginitWith 8 = .ok ⟨malloc, 8, 0, 0⟩ ∧ Inv ⟨malloc, 8, 0, 0⟩ ∧
    (∀ ct ch_cls : Bool, gadjust ct ch_cls true ⟨malloc, 8, 0, 0⟩ = .error .ExBadAlloc) ∧
    Inv (gclear ⟨store (store malloc 8 3 104) 8 4 105, 8, 3, 2⟩) ∧
    gadjust true true true (gclear ⟨store (store malloc 8 3 104) 8 4 105, 8, 3, 2⟩) =
      .error .ExBadAlloc ∧
    (∃ b1, gadjust true true false ⟨malloc, 8, 0, 0⟩ = .ok b1 ∧
      b1.capacity = 0 ∧ b1.size = 0 ∧ b1.value = 0) ∧
    ∃ b2, gadjust true true true ⟨store (store malloc 8 3 104) 8 4 105, 8, 3, 2⟩ = .ok b2 ∧
      content b2 = [some 104, some 105] ∧ b2.capacity = 2 ∧ b2.value = 0 := by
  refine ⟨rfl, by decide, ?_, by decide, rfl, ⟨_, rfl, rfl, rfl, rfl⟩, ⟨_, rfl, by rfl, rfl, rfl⟩⟩
  intro ct ch_cls
  cases ct <;> cases ch_cls <;> rfl

/-! ## C6: `gappend(StringDyn, String)` -/

/-- C6, failing input: `ginitWith(2)`, two `gappend`, two `gdropFirst` give a
buffer of capacity 2 with view offset 2 and size 0, which satisfies the
invariants and has back slack 0; `gappend` of a string of 2 elements does not
enlarge (it compares the front slack, 2, with the length), the capacity stays
2, and `view_offset + size = 4 > capacity`. -/
theorem gappend_String_no_enlarge :
    ∃ b1 b2, gappend_Char true ⟨malloc, 2, 0, 0⟩ 97 = .ok b1 ∧
      gappend_Char true b1 98 = .ok b2 ∧
      Inv (gdropFirst (gdropFirst b2)) ∧
      (gdropFirst (gdropFirst b2)).capacity - (gdropFirst (gdropFirst b2)).value -
        (gdropFirst (gdropFirst b2)).size < [120, 121].length ∧
      ∃ b3, gappend_String true (gdropFirst (gdropFirst b2)) [120, 121] = .ok b3 ∧
        b3.capacity = 2 ∧ b3.value = 2 ∧ b3.size = 2 ∧ ¬ b3.value + b3.size ≤ b3.capacity :=
  ⟨_, _, rfl, rfl, by decide, by decide, _, rfl, rfl, rfl, rfl, by decide⟩

/-! ## C7: `gprepend(StringDyn, String)` -/

/-- C7, amended: for every buffer satisfying the invariants and every string
`other` of `n` elements such that, when the front slack is smaller than `n`,
the growth policy returns a value `e` and `capacity + max(e, 1024)` fits a
`U32`: `gprepend` returns, the content is the elements of `other` followed by
the old content, the size has grown by `n`, the view offset is the old offset
plus the growth `g` of the capacity minus `n` (so it is not negative), and
`view_offset + size ≤ capacity`. -/
theorem gprepend_String_spec (ct : Bool) (b : StringDyn) (other : List Nat) (hinv : Inv b)
    (hg : b.value < other.length →
      ∃ e, extra_size b.capacity other.length = .ok e ∧ b.capacity + max e 1024 < U32_MOD) :
    ∃ b1, gprepend_String ct b other = .ok b1 ∧
      content b1 = other.map some ++ content b ∧
      b1.size = b.size + other.length ∧
      b1.value + b1.size ≤ b1.capacity ∧
      ∃ g, b1.capacity = b.capacity + g ∧ b1.value + other.length = b.value + g := by
  obtain ⟨hu, hle⟩ := hinv
  by_cases h : b.value < other.length
  · obtain ⟨e, he, hcap⟩ := hg h
    obtain ⟨hne, he2⟩ := extra_size_ok _ _ _ he
    have hfront := genlarge_Int_front ct b e (by omega) he2 hcap
    generalize hM : max e 1024 = M at hcap hfront
    have hMe : e ≤ M := by omega
    have hsz : (b.size + other.length) % U32_MOD = b.size + other.length :=
      Nat.mod_eq_of_lt (by omega)
    unfold gprepend_String
    simp only [h, if_true, he, hfront, hsz]
    refine ⟨_, rfl, ?_, rfl, ?_, ⟨M, rfl, ?_⟩⟩
    · apply List.ext_getElem?
      intro k
      rw [getElem?_content, getElem?_map_some_append, getElem?_content]
      simp only [load_memcpy, load_memmove]
      by_cases hk : k < other.length
      · have h1 : k < b.size + other.length := by omega
        have h2 : b.value + M - other.length ≤ b.value + M - other.length + k := by omega
        have h3 : b.value + M - other.length + k < b.value + M - other.length + other.length := by
          omega
        have h4 : b.value + M - other.length + k < b.capacity + M := by omega
        have h5 : b.value + M - other.length + k - (b.value + M - other.length) = k := by omega
        simp only [hk, h1, h2, h3, h4, h5, if_true, and_self]
      · by_cases hk2 : k < b.size + other.length
        · have h3 : ¬ b.value + M - other.length + k < b.value + M - other.length + other.length := by
            omega
          have h4 : b.value + M ≤ b.value + M - other.length + k := by omega
          have h5 : b.value + M - other.length + k < b.value + M + b.size := by omega
          have h6 : b.value + M - other.length + k < b.capacity + M := by omega
          have h7 : k - other.length < b.size := by omega
          have h8 : b.value + (b.value + M - other.length + k - (b.value + M)) =
              b.value + (k - other.length) := by omega
          simp only [hk, hk2, h3, h4, h5, h6, h7, h8, if_true, if_false, and_false, and_self,
            false_and, load_realloc_grow _ _ _ _ (by omega : b.capacity ≤ b.capacity + M)]
        · have h7 : ¬ k - other.length < b.size := by omega
          simp only [hk, hk2, h7, if_false]
    · show b.value + M - other.length + (b.size + other.length) ≤ b.capacity + M
      omega
    · show b.value + M - other.length + other.length = b.value + M
      omega
  · have hsz : (b.size + other.length) % U32_MOD = b.size + other.length :=
      Nat.mod_eq_of_lt (by omega)
    unfold gprepend_String
    simp only [h, if_false, hsz]
    refine ⟨_, rfl, ?_, rfl, ?_, ⟨0, rfl, ?_⟩⟩
    · apply List.ext_getElem?
      intro k
      rw [getElem?_content, getElem?_map_some_append, getElem?_content]
      simp only [load_memcpy]
      by_cases hk : k < other.length
      · have h1 : k < b.size + other.length := by omega
        have h2 : b.value - other.length ≤ b.value - other.length + k := by omega
        have h3 : b.value - other.length + k < b.value - other.length + other.length := by omega
        have h4 : b.value - other.length + k < b.capacity := by omega
        have h5 : b.value - other.length + k - (b.value - other.length) = k := by omega
        simp only [hk, h1, h2, h3, h4, h5, if_true, and_self]
      · by_cases hk2 : k < b.size + other.length
        · have h3 : ¬ b.value - other.length + k < b.value - other.length + other.length := by
            omega
          have h7 : k - other.length < b.size := by omega
          have h8 : b.value - other.length + k = b.value + (k - other.length) := by omega
          simp only [hk, hk2, h3, h7, if_true, if_false, and_false, false_and]
          rw [h8]
        · have h7 : ¬ k - other.length < b.size := by omega
          simp only [hk, hk2, h7, if_false]
    · show b.value - other.length + (b.size + other.length) ≤ b.capacity
      omega
    · show b.value - other.length + other.length = b.value + 0
      omega

set_option maxRecDepth 100000 in
/-- C7, counterexample: a buffer of capacity 3000000000 satisfies the
invariants and the growth policy succeeds on it, yet after `gprepend` of a
one-element string the `U32` capacity has wrapped around to 559134704 and
the live view ends at element 1854102000, outside the allocation. -/
theorem gprepend_String_wraps :
    Inv ⟨malloc, 3000000000, 0, 0⟩ ∧
    extra_size 3000000000 1 = .ok 1854102000 ∧
    ∃ b1, gprepend_String true ⟨malloc, 3000000000, 0, 0⟩ [120] = .ok b1 ∧
      b1.capacity = 559134704 ∧ b1.value = 1854101999 ∧ b1.size = 1 ∧
      ¬ b1.value + b1.size ≤ b1.capacity :=
  ⟨by decide, by rfl, _, rfl, rfl, rfl, rfl, by decide⟩

set_option maxRecDepth 100000 in
/-- C7, witness: "hi" prepended to an empty buffer of capacity 8, through a
front enlargement. -/
theorem gprepend_String_spec_witness :
    ∃ b1, gprepend_String true ⟨malloc, 8, 0, 0⟩ [104, 105] = .ok b1 ∧
      content b1 = [104, 105].map some ++ content ⟨malloc, 8, 0, 0⟩ ∧
      b1.size = 0 + [104, 105].length ∧
      b1.value + b1.size ≤ b1.capacity ∧
      ∃ g, b1.capacity = 8 + g ∧ b1.value + [104, 105].length = 0 + g :=
  gprepend_String_spec true ⟨malloc, 8, 0, 0⟩ [104, 105] (by decide)
    (fun _ => ⟨4, by rfl, by decide⟩)

/-! ## C8: elements prepended one at a time -/

set_option maxRecDepth 100000 in
/-- C8, counterexample: on the empty buffer `ginitWith` makes for capacity 1
the first `gprepend` raises "string size overflow": the growth policy computes
`extra = 1`, which is not greater than the one element asked for. -/
theorem prependAll_small_capacity_fails :
    ginitWith 1 = .ok ⟨malloc, 1, 0, 0⟩ ∧ Inv ⟨malloc, 1, 0, 0⟩ ∧
    prependAll true ⟨malloc, 1, 0, 0⟩ [97] = .error .string_size_overflow ∧
    prependAll false ⟨malloc, 1, 0, 0⟩ [97] = .error .string_size_overflow :=
  ⟨rfl, by decide, by rfl, by rfl⟩

/-- C8, amended: for every buffer satisfying the invariants and every list of
elements prepended one at a time, when every `gprepend` returns (no assertion
of the growth policy fails) and no enlargement wraps the `U32` capacity
around, the resulting content is the prepended elements in reverse order of
prepending followed by the unchanged old content, and the invariants hold. -/
theorem prependAll_spec (ct : Bool) (b : StringDyn) (cs : List Int) (hinv : Inv b)
    (hok : prependsOk ct b cs = true) :
    ∃ b1, prependAll ct b cs = .ok b1 ∧
      content b1 = cs.reverse.map (fun c => some (toU8 c)) ++ content b ∧ Inv b1 := by
  induction cs generalizing b with
  | nil => exact ⟨b, rfl, by simp, hinv⟩
  | cons c cs ih =>
    unfold prependsOk at hok
    cases h1 : gprepend_Char ct b c with
    | error x => simp [h1] at hok
    | ok b1 =>
      simp only [h1, Bool.and_eq_true, decide_eq_true_eq] at hok
      obtain ⟨b1', hb1, hinv1, hcont1⟩ :=
        gprepend_Char_post ct b c hinv (gprepend_Char_growth ct b b1 c hinv h1 hok.1)
      rw [h1] at hb1
      injection hb1 with hb1
      subst hb1
      obtain ⟨b2, hb2, hcont2, hinv2⟩ := ih b1 hinv1 hok.2
      refine ⟨b2, ?_, ?_, hinv2⟩
      · unfold prependAll
        simp only [h1]
        exact hb2
      · rw [hcont2, hcont1]
        simp

set_option maxRecDepth 100000 in
/-- C8, witness: `prepend(a); prepend(b); prepend(c)` on an empty buffer of
capacity 4; the first call enlarges the front. -/
theorem prependAll_spec_witness :
    ∃ b1, prependAll true ⟨malloc, 4, 0, 0⟩ [97, 98, 99] = .ok b1 ∧
      content b1 = [97, 98, 99].reverse.map (fun c => some (toU8 c)) ++
        content ⟨malloc, 4, 0, 0⟩ ∧ Inv b1 :=
  prependAll_spec true ⟨malloc, 4, 0, 0⟩ [97, 98, 99] (by decide) (by rfl)

/-! ## C9: the scenario `append('a'); append('b'); prepend('z')` from capacity 0 -/

set_option maxRecDepth 100000 in
/-- C9, failing input: with the contracts compiled in, the first `gappend` on
the buffer `ginitWith` makes for capacity 0 raises "invalid growing size"
(`genlarge` is asked to grow by `0 * 0.618034 = 0`); with the contracts
compiled out the scenario gives "zab", size 3 and capacity 2048. -/
theorem scenario_zab :
    ginitWith 0 = .ok ⟨malloc, 0, 0, 0⟩ ∧
    gappend_Char true ⟨malloc, 0, 0, 0⟩ 97 = .error .invalid_growing_size ∧
    run true ⟨malloc, 0, 0, 0⟩ [Op.append 97, Op.append 98, Op.prepend 122] =
      .error .invalid_growing_size ∧
    ∃ b, run false ⟨malloc, 0, 0, 0⟩ [Op.append 97, Op.append 98, Op.prepend 122] = .ok b ∧
      content b = [some 122, some 97, some 98] ∧ b.size = 3 ∧ b.capacity = 2048 :=
  ⟨rfl, by rfl, by rfl, _, by rfl, by rfl, rfl, rfl⟩

/-! ## C10: `ginsertAt` of one element followed by `gremoveAt` -/

set_option maxRecDepth 100000 in
/-- C10, counterexample: on the full buffer of capacity 1 holding "a"
(`ginitWith(1)` then `gappend`), which satisfies the invariants, `ginsertAt`
at the valid index 0 raises "string size overflow" and inserts nothing. -/
theorem ginsertAt_Object_full_small_fails :
    gappend_Char true ⟨malloc, 1, 0, 0⟩ 97 = .ok ⟨store malloc 1 0 97, 1, 0, 1⟩ ∧
    Inv ⟨store malloc 1 0 97, 1, 0, 1⟩ ∧
    content ⟨store malloc 1 0 97, 1, 0, 1⟩ = [some 97] ∧
    ginsertAt_Object true ⟨store malloc 1 0 97, 1, 0, 1⟩ 0 98 = .error .string_size_overflow ∧
    ginsertAt_Object false ⟨store malloc 1 0 97, 1, 0, 1⟩ 0 98 = .error .string_size_overflow :=
  ⟨rfl, by decide, by rfl, by rfl, by rfl⟩

/-- C10, amended: for every buffer satisfying the invariants that is full or
has back slack (`size == capacity` or `view_offset + size < capacity`), every
element and every index `i` with `0 ≤ i ≤ size`, when the enlargement of a
full buffer succeeds (the growth policy returns `e` and
`capacity + max(e, 1024)` fits a `U32`): `ginsertAt(i, e)` returns, the
following `gremoveAt(i)` returns, and the content and the size are those
before the insertion. -/
theorem ginsertAt_gremoveAt (ct : Bool) (b : StringDyn) (i : Nat) (chr : Int) (hinv : Inv b)
    (hi : i ≤ b.size)
    (hslack : b.size = b.capacity ∨ b.value + b.size < b.capacity)
    (hg : b.size = b.capacity →
      ∃ e, extra_size b.capacity 1 = .ok e ∧ b.capacity + max e 1024 < U32_MOD) :
    ∃ b1 b2, ginsertAt_Object ct b (i : Int) chr = .ok b1 ∧
      gremoveAt_Int ct b1 (i : Int) = .ok b2 ∧
      content b2 = content b ∧ b2.size = b.size := by
  have hri : Range_index (i : Int) b.size = i :=
    Range_index_nat i _ (by have := hinv.1; have := hinv.2; omega)
  have hpre : ¬ (ct = true ∧ ¬ i ≤ b.size) := by
    intro h
    omega
  by_cases h : b.size = b.capacity
  · obtain ⟨e, he, hcap⟩ := hg h
    obtain ⟨hne, he2⟩ := extra_size_ok _ _ _ he
    obtain ⟨be, hbe, hinv1, hcap1, hval, hsize, hcont⟩ :=
      genlarge_back_post ct b e hinv (by omega) hcap
    have hs : be.value + be.size < be.capacity := by
      have := hinv.2
      omega
    obtain ⟨b2, hb2, hc2, hs2⟩ := insert_remove_raw ct be i (toU8 chr) hinv1 hs (by omega)
    refine ⟨_, b2, ?_, hb2, by rw [hc2, hcont], by rw [hs2, hsize]⟩
    unfold ginsertAt_Object
    simp only [hri, if_neg hpre, if_pos h, he, hbe, hsize, ite_self]
  · have hs : b.value + b.size < b.capacity := by
      rcases hslack with h1 | h1
      · exact absurd h1 h
      · exact h1
    obtain ⟨b2, hb2, hc2, hs2⟩ := insert_remove_raw ct b i (toU8 chr) hinv hs hi
    refine ⟨_, b2, ?_, hb2, hc2, hs2⟩
    unfold ginsertAt_Object
    simp only [hri, if_neg hpre, if_neg h, ite_self]

set_option maxRecDepth 100000 in
/-- C10, witness: an element inserted at index 1 of the full buffer "hi" of
capacity 8 (which is enlarged), then removed. -/
theorem ginsertAt_gremoveAt_witness :
    ∃ b1 b2, ginsertAt_Object true
        ⟨memcpy malloc 8 0 [104, 105, 106, 107, 108, 109, 110, 111], 8, 0, 8⟩ ((1 : Nat) : Int) 120
          = .ok b1 ∧
      gremoveAt_Int true b1 ((1 : Nat) : Int) = .ok b2 ∧
      content b2 = content ⟨memcpy malloc 8 0 [104, 105, 106, 107, 108, 109, 110, 111], 8, 0, 8⟩ ∧
      b2.size = 8 :=
  ginsertAt_gremoveAt true ⟨memcpy malloc 8 0 [104, 105, 106, 107, 108, 109, 110, 111], 8, 0, 8⟩
    1 120 (by decide) (by decide) (Or.inl rfl) (fun _ => ⟨4, by rfl, by decide⟩)

/-! ## C11: `ginsertAt(StringDyn, Int, String)` -/

theorem getElem?_insert (l : List (Option Nat)) (xs : List Nat) (i k : Nat) (hi : i ≤ l.length) :
    (l.take i ++ xs.map some ++ l.drop i)[k]? =
      if k < i then l[k]?
      else if k < i + xs.length then some xs[k - i]?
      else l[k - xs.length]? := by
  have hlen : (l.take i).length = i := by
    rw [List.length_take]
    omega
  rw [List.append_assoc]
  by_cases hk : k < i
  · rw [List.getElem?_append_left (by omega)]
    simp only [hk, if_true]
    rw [List.getElem?_take]
    simp only [hk, if_true]
  · rw [List.getElem?_append_right (by omega), hlen, getElem?_map_some_append]
    simp only [hk, if_false]
    by_cases hk2 : k < i + xs.length
    · have h1 : k - i < xs.length := by omega
      simp only [hk2, h1, if_true]
    · have h1 : ¬ k - i < xs.length := by omega
      simp only [hk2, h1, if_false]
      rw [List.getElem?_drop]
      congr 1
      omega

/-- The shift, the copy and the field update that end `ginsertAt` of a string,
on a buffer whose back slack holds the string. -/
theorem content_insert_raw (b : StringDyn) (other : List Nat) (i : Nat)
    (hs : b.value + b.size + other.length ≤ b.capacity) (hi : i ≤ b.size) :
    content { b with _value := memcpy (memmove b._value b.capacity (b.value + i + other.length)
                                 (b.value + i) (b.size - i)) b.capacity (b.value + i) other,
                     size := b.size + other.length } =
      (content b).take i ++ other.map some ++ (content b).drop i := by
  apply List.ext_getElem?
  intro k
  rw [getElem?_insert _ _ _ _ (by simpa [content] using hi)]
  simp only [getElem?_content, load_memcpy, load_memmove]
  by_cases hk : k < i
  · have h1 : k < b.size + other.length := by omega
    have h2 : k < b.size := by omega
    have h3 : ¬ b.value + i ≤ b.value + k := by omega
    have h4 : ¬ b.value + i + other.length ≤ b.value + k := by omega
    simp only [hk, h1, h2, h3, h4, if_true, if_false, false_and]
  · by_cases hk2 : k < i + other.length
    · have h1 : k < b.size + other.length := by omega
      have h3 : b.value + i ≤ b.value + k := by omega
      have h4 : b.value + k < b.value + i + other.length := by omega
      have h5 : b.value + k < b.capacity := by omega
      have h6 : b.value + k - (b.value + i) = k - i := by omega
      simp only [hk, hk2, h1, h3, h4, h5, h6, if_true, if_false, and_self]
    · by_cases hk3 : k < b.size + other.length
      · have h2 : k - other.length < b.size := by omega
        have h4 : ¬ b.value + k < b.value + i + other.length := by omega
        have h5 : b.value + i + other.length ≤ b.value + k := by omega
        have h6 : b.value + k < b.value + i + other.length + (b.size - i) := by omega
        have h7 : b.value + k < b.capacity := by omega
        have h8 : b.value + i + (b.value + k - (b.value + i + other.length)) =
            b.value + (k - other.length) := by omega
        simp only [hk, hk2, hk3, h2, h4, h5, h6, h7, h8, if_true, if_false, and_self,
          false_and, and_false]
      · have h2 : ¬ k - other.length < b.size := by omega
        simp only [hk, hk2, hk3, h2, if_false]

set_option maxRecDepth 100000 in
/-- C11, counterexample: on the full buffer "hello" of capacity 5, which
satisfies the invariants, `ginsertAt` of a string of 8 elements at the valid
index 5 raises "string size overflow" (the growth policy computes
`extra = 8`, not greater than 8) and inserts nothing. -/
theorem ginsertAt_String_full_fails :
    Inv ⟨memcpy malloc 5 0 [104, 101, 108, 108, 111], 5, 0, 5⟩ ∧
    content ⟨memcpy malloc 5 0 [104, 101, 108, 108, 111], 5, 0, 5⟩ =
      [some 104, some 101, some 108, some 108, some 111] ∧
    ginsertAt_String true ⟨memcpy malloc 5 0 [104, 101, 108, 108, 111], 5, 0, 5⟩ 5
      [32, 119, 111, 114, 108, 100, 33, 33] = .error .string_size_overflow ∧
    ginsertAt_String false ⟨memcpy malloc 5 0 [104, 101, 108, 108, 111], 5, 0, 5⟩ 5
      [32, 119, 111, 114, 108, 100, 33, 33] = .error .string_size_overflow :=
  ⟨by decide, by rfl, by rfl, by rfl⟩

/-- C11, amended: for every buffer satisfying the invariants with content `s`,
every index `i` with `0 ≤ i ≤ size` and every inserted string `t` such that
either the buffer is full and the growth policy returns a value `e` with
`capacity + max(e, 1024)` fitting a `U32`, or the buffer is not full and its
back slack is at least `|t|`: `ginsertAt(i, t)` returns, the content is
`s[0..i) ++ t ++ s[i..size)`, the size is `size + |t|` and the invariants hold. -/
theorem ginsertAt_String_spec (ct : Bool) (b : StringDyn) (i : Nat) (other : List Nat)
    (hinv : Inv b) (hi : i ≤ b.size)
    (hg : b.size = b.capacity →
      ∃ e, extra_size b.capacity other.length = .ok e ∧ b.capacity + max e 1024 < U32_MOD)
    (hslack : b.size ≠ b.capacity → b.value + b.size + other.length ≤ b.capacity) :
    ∃ b1, ginsertAt_String ct b (i : Int) other = .ok b1 ∧
      content b1 = (content b).take i ++ other.map some ++ (content b).drop i ∧
      b1.size = b.size + other.length ∧ Inv b1 := by
  have hri : Range_index (i : Int) b.size = i :=
    Range_index_nat i _ (by have := hinv.1; have := hinv.2; omega)
  have hpre : ¬ (ct = true ∧ ¬ i ≤ b.size) := by
    intro h
    omega
  have key : ∀ be : StringDyn, Inv be → be.size = b.size → content be = content b →
      be.value + be.size + other.length ≤ be.capacity →
      ∃ b1, (Except.ok { be with _value := memcpy (memmove be._value be.capacity
                                   (be.value + i + other.length) (be.value + i)
                                   ((be.size + U32_MOD - i) % U32_MOD))
                                   be.capacity (be.value + i) other,
                                 size := (be.size + other.length) % U32_MOD } :
          Except Err StringDyn) = .ok b1 ∧
        content b1 = (content b).take i ++ other.map some ++ (content b).drop i ∧
        b1.size = b.size + other.length ∧ Inv b1 := by
    intro be hinve hsize hcont hs
    have hn : (be.size + U32_MOD - i) % U32_MOD = be.size - i := by
      have := hinve.1
      have := hinve.2
      simp only [U32_MOD] at *
      omega
    have hsz : (be.size + other.length) % U32_MOD = be.size + other.length :=
      Nat.mod_eq_of_lt (by have := hinve.1; omega)
    rw [hn, hsz]
    refine ⟨_, rfl, ?_, ?_, ⟨hinve.1, ?_⟩⟩
    · rw [content_insert_raw be other i hs (by omega), hcont]
    · show be.size + other.length = b.size + other.length
      omega
    · show be.value + (be.size + other.length) ≤ be.capacity
      omega
  by_cases h : b.size = b.capacity
  · obtain ⟨e, he, hcap⟩ := hg h
    obtain ⟨hne, he2⟩ := extra_size_ok _ _ _ he
    obtain ⟨be, hbe, hinv1, hcap1, hval, hsize, hcont⟩ :=
      genlarge_back_post ct b e hinv (by omega) hcap
    have hs : be.value + be.size + other.length ≤ be.capacity := by
      have := hinv.2
      omega
    unfold ginsertAt_String
    simp only [hri, if_neg hpre, if_pos h, he, hbe, hsize, ite_self]
    have := key be hinv1 hsize hcont hs
    rw [hsize] at this
    exact this
  · unfold ginsertAt_String
    simp only [hri, if_neg hpre, if_neg h, ite_self]
    exact key b hinv rfl rfl (hslack h)

set_option maxRecDepth 100000 in
/-- C11, witness: " world" inserted at index 5 of the full buffer "hello" of
capacity 5 gives "hello world". -/
theorem ginsertAt_String_spec_witness :
    [some 104, some 101, some 108, some 108, some 111].take 5 ++
        [32, 119, 111, 114, 108, 100].map some ++
        [some 104, some 101, some 108, some 108, some 111].drop 5 =
      [some 104, some 101, some 108, some 108, some 111, some 32, some 119, some 111,
        some 114, some 108, some 100] ∧
    ∃ b1, ginsertAt_String true ⟨memcpy malloc 5 0 [104, 101, 108, 108, 111], 5, 0, 5⟩
        ((5 : Nat) : Int) [32, 119, 111, 114, 108, 100] = .ok b1 ∧
      content b1 =
        (content ⟨memcpy malloc 5 0 [104, 101, 108, 108, 111], 5, 0, 5⟩).take 5 ++
          [32, 119, 111, 114, 108, 100].map some ++
          (content ⟨memcpy malloc 5 0 [104, 101, 108, 108, 111], 5, 0, 5⟩).drop 5 ∧
      b1.size = 5 + [32, 119, 111, 114, 108, 100].length ∧ Inv b1 :=
  ⟨by decide, ginsertAt_String_spec true ⟨memcpy malloc 5 0 [104, 101, 108, 108, 111], 5, 0, 5⟩ 5
    [32, 119, 111, 114, 108, 100] (by decide) (by decide) (fun _ => ⟨8, by rfl, by decide⟩)
    (fun h => absurd rfl h)⟩

/-! ## C12: `gremoveAt(StringDyn, Slice)` and the stride -/

/-- C12, failing inputs: on the buffer "hello", with the contracts compiled
in, the slice `(start 1, count 2, stride 1)`, which lies inside the buffer, is
rejected with "slice stride not 1" (the `PRE` asserts `stride != 1`), and the
slice `(start 0, count 2, stride 2)` is accepted and removes the two elements
0 and 1, leaving "llo"; the same holds through `gremoveAt(StringDyn, Range)`.
With the contracts compiled out the slice of stride 1 removes the elements 1
and 2 and leaves "hlo". -/
theorem gremoveAt_Slice_stride_inverted :
    content ⟨memcpy malloc 5 0 [104, 101, 108, 108, 111], 5, 0, 5⟩ =
      [some 104, some 101, some 108, some 108, some 111] ∧
    gremoveAt_Slice true ⟨memcpy malloc 5 0 [104, 101, 108, 108, 111], 5, 0, 5⟩ ⟨1, 2, 1⟩ =
      .error .slice_stride_not_1 ∧
    gremoveAt_Range true ⟨memcpy malloc 5 0 [104, 101, 108, 108, 111], 5, 0, 5⟩ ⟨1, 2, 1⟩ =
      .error .slice_stride_not_1 ∧
    (∃ b1, gremoveAt_Slice true ⟨memcpy malloc 5 0 [104, 101, 108, 108, 111], 5, 0, 5⟩
        ⟨0, 2, 2⟩ = .ok b1 ∧
      b1.size = 3 ∧ content b1 = [some 108, some 108, some 111]) ∧
    ∃ b2, gremoveAt_Slice false ⟨memcpy malloc 5 0 [104, 101, 108, 108, 111], 5, 0, 5⟩
        ⟨1, 2, 1⟩ = .ok b2 ∧
      b2.size = 3 ∧ content b2 = [some 104, some 108, some 111] :=
  ⟨by rfl, by rfl, by rfl, ⟨_, rfl, rfl, by rfl⟩, _, rfl, rfl, by rfl⟩

/-! ## C13: `gremoveAt(StringDyn, Int)` at the index `size` -/

/-- C13, failing inputs: with the contracts compiled in, `gremoveAt` at index 0
of the empty buffer of capacity 4 is accepted (the `PRE` asserts
`i <= size`), the size wraps around to 4294967295 and `ginvariant` raises;
at index 5 of the buffer "hello" it is accepted too, the size drops to 4 and
the last element is lost. -/
theorem gremoveAt_Int_at_size_accepted :
    (∃ b1, gremoveAt_Int true ⟨malloc, 4, 0, 0⟩ 0 = .ok b1 ∧ b1.size = 4294967295 ∧
      ginvariant b1 = .error .capacity_lt_size) ∧
    content ⟨memcpy malloc 5 0 [104, 101, 108, 108, 111], 5, 0, 5⟩ =
      [some 104, some 101, some 108, some 108, some 111] ∧
    ∃ b2, gremoveAt_Int true ⟨memcpy malloc 5 0 [104, 101, 108, 108, 111], 5, 0, 5⟩ 5 = .ok b2 ∧
      b2.size = 4 ∧ content b2 = [some 104, some 101, some 108, some 108] :=
  ⟨⟨_, rfl, rfl, rfl⟩, by rfl, _, rfl, rfl, by rfl⟩

/-! ## C14: `gremoveAt(StringDyn, Int)` at an index below the size -/

theorem getElem?_take_append_drop (l : List (Option Nat)) (i k : Nat) (hi : i < l.length) :
    (l.take i ++ l.drop (i + 1))[k]? = if k < i then l[k]? else l[k + 1]? := by
  have hlen : (l.take i).length = i := by
    rw [List.length_take]
    omega
  by_cases hk : k < i
  · rw [List.getElem?_append_left (by omega)]
    simp only [hk, if_true]
    rw [List.getElem?_take]
    simp only [hk, if_true]
  · rw [List.getElem?_append_right (by omega)]
    simp only [hk, if_false, hlen]
    rw [List.getElem?_drop]
    congr 1
    omega

/-- C14: for every buffer (whose size is a `U32`) and every index `i` with
`0 ≤ i < size`, `gremoveAt(i)` returns, the content is the old content
without its element `i`, the size is one less, and the capacity and the view
offset are unchanged. -/
theorem gremoveAt_Int_spec (ct : Bool) (b : StringDyn) (i : Nat) (hs : b.size < U32_MOD)
    (hi : i < b.size) :
    ∃ b1, gremoveAt_Int ct b (i : Int) = .ok b1 ∧
      content b1 = (content b).take i ++ (content b).drop (i + 1) ∧
      b1.size = b.size - 1 ∧ b1.capacity = b.capacity ∧ b1.value = b.value := by
  have hri : Range_index (i : Int) b.size = i := Range_index_nat i _ (by omega)
  have hpre : ¬ (ct = true ∧ ¬ i ≤ b.size) := by
    intro h
    omega
  have hsz : (b.size + U32_MOD - 1) % U32_MOD = b.size - 1 := by
    simp only [U32_MOD] at *
    omega
  have hn : (b.size - 1 + U32_MOD - i) % U32_MOD = b.size - 1 - i := by
    simp only [U32_MOD] at *
    omega
  unfold gremoveAt_Int
  simp only [hri, if_neg hpre, hsz, hn]
  refine ⟨_, rfl, ?_, rfl, rfl, rfl⟩
  apply List.ext_getElem?
  intro k
  rw [getElem?_take_append_drop _ _ _ (by simpa [content] using hi)]
  simp only [getElem?_content, load_memmove]
  by_cases hk : k < b.size - 1
  · have hk1 : k < b.size := by omega
    have hk2 : k + 1 < b.size := by omega
    simp only [hk, hk1, hk2, if_true]
    by_cases hki : k < i
    · have h1 : ¬ b.value + i ≤ b.value + k := by omega
      simp only [hki, if_true, h1, false_and, if_false]
    · have h1 : b.value + i ≤ b.value + k := by omega
      have h2 : b.value + k < b.value + i + (b.size - 1 - i) := by omega
      have h3 : b.value + i + 1 + (b.value + k - (b.value + i)) = b.value + (k + 1) := by omega
      simp only [hki, if_false, h1, h2, h3, true_and]
      by_cases hc : b.value + k < b.capacity
      · simp only [hc, if_true]
      · have hc2 : ¬ b.value + (k + 1) < b.capacity := by omega
        simp only [hc, if_false, load, hc2]
  · have hk2 : ¬ k + 1 < b.size := by omega
    simp only [hk, if_false, hk2]
    by_cases hki : k < i
    · have hk1 : k < b.size := by omega
      omega
    · simp only [hki, if_false]

/-- C14, witness: "hello" without its element 1 is "hllo", of size 4. -/
theorem gremoveAt_Int_spec_witness :
    content ⟨memcpy malloc 8 2 [104, 101, 108, 108, 111], 8, 2, 5⟩ =
      [some 104, some 101, some 108, some 108, some 111] ∧
    ∃ b1, gremoveAt_Int true ⟨memcpy malloc 8 2 [104, 101, 108, 108, 111], 8, 2, 5⟩
        ((1 : Nat) : Int) = .ok b1 ∧
      content b1 =
        (content ⟨memcpy malloc 8 2 [104, 101, 108, 108, 111], 8, 2, 5⟩).take 1 ++
          (content ⟨memcpy malloc 8 2 [104, 101, 108, 108, 111], 8, 2, 5⟩).drop (1 + 1) ∧
      b1.size = 5 - 1 ∧ b1.capacity = 8 ∧ b1.value = 2 :=
  ⟨by rfl, gremoveAt_Int_spec true ⟨memcpy malloc 8 2 [104, 101, 108, 108, 111], 8, 2, 5⟩ 1
    (by decide) (by decide)⟩

/-! ## C15: `gdrop(StringDyn, Int)` -/

theorem iterate_gdropFirst (k : Nat) (b : StringDyn) (h : k ≤ b.size) :
    Nat.iterate gdropFirst k b = { b with size := b.size - k, value := b.value + k } := by
  induction k generalizing b with
  | zero => rfl
  | succ k ih =>
    have hne : b.size ≠ 0 := by omega
    rw [Function.iterate_succ_apply]
    have h1 : gdropFirst b = { b with size := b.size - 1, value := b.value + 1 } := by
      unfold gdropFirst
      simp only [if_pos hne]
    rw [h1, ih _ (by show k ≤ b.size - 1; omega)]
    show ({ _value := b._value, capacity := b.capacity, value := b.value + 1 + k,
            size := b.size - 1 - k } : StringDyn) = _
    have e1 : b.value + 1 + k = b.value + (k + 1) := by omega
    have e2 : b.size - 1 - k = b.size - (k + 1) := by omega
    rw [e1, e2]

theorem iterate_gdropLast (k : Nat) (b : StringDyn) (h : k ≤ b.size) :
    Nat.iterate gdropLast k b = { b with size := b.size - k } := by
  induction k generalizing b with
  | zero => rfl
  | succ k ih =>
    have hne : b.size ≠ 0 := by omega
    rw [Function.iterate_succ_apply]
    have h1 : gdropLast b = { b with size := b.size - 1 } := by
      unfold gdropLast
      simp only [if_pos hne]
    rw [h1, ih _ (by show k ≤ b.size - 1; omega)]
    show ({ _value := b._value, capacity := b.capacity, value := b.value,
            size := b.size - 1 - k } : StringDyn) = _
    have e2 : b.size - 1 - k = b.size - (k + 1) := by omega
    rw [e2]

theorem content_drop_front (b : StringDyn) (k : Nat) (h : k ≤ b.size) :
    content { b with size := b.size - k, value := b.value + k } = (content b).drop k := by
  apply List.ext_getElem?
  intro j
  rw [List.getElem?_drop, getElem?_content, getElem?_content]
  by_cases hj : j < b.size - k
  · have h1 : k + j < b.size := by omega
    have h2 : b.value + k + j = b.value + (k + j) := by omega
    simp only [hj, h1, if_true, h2]
  · have h1 : ¬ k + j < b.size := by omega
    simp only [hj, h1, if_false]

theorem content_drop_back (b : StringDyn) (k : Nat) :
    content { b with size := b.size - k } = (content b).take (b.size - k) := by
  apply List.ext_getElem?
  intro j
  rw [List.getElem?_take, getElem?_content, getElem?_content]
  by_cases hj : j < b.size - k
  · have h1 : j < b.size := by omega
    simp only [hj, h1, if_true]
  · simp only [hj, if_false]

/-- C15, counterexample: for `n = INT_MIN` the magnitude is computed as
`-self2->value` in `I32`, which is undefined, whatever the buffer (here
"hello"). -/
theorem gdrop_INT_MIN_undefined :
    gdrop ⟨memcpy malloc 5 0 [104, 101, 108, 108, 111], 5, 0, 5⟩ (-2147483648) =
      .error .undefined := rfl

/-- C15, amended: for every buffer and every signed `n` other than `INT_MIN`,
`gdrop(n)` returns the buffer that `k = min(|n|, size)` successive
`gdropFirst` (for `n < 0`) or `gdropLast` (for `n ≥ 0`) give; the size is
`size - k` (0 when `|n| > size`), the capacity is unchanged; for `n < 0` the
view offset is advanced by `k` and the last `size - k` elements are kept, for
`n > 0` the view offset is unchanged and the first `size - k` elements are
kept. -/
theorem gdrop_spec (b : StringDyn) (n : Int) (hmin : I32_MIN < n) (hmax : n ≤ I32_MAX) :
    gdrop b n = .ok (drop_spec b n) ∧
    (drop_spec b n).size = b.size - min n.natAbs b.size ∧
    (b.size < n.natAbs → (drop_spec b n).size = 0) ∧
    (drop_spec b n).capacity = b.capacity ∧
    (n < 0 → (drop_spec b n).value = b.value + min n.natAbs b.size ∧
      content (drop_spec b n) = (content b).drop (min n.natAbs b.size)) ∧
    (0 < n → (drop_spec b n).value = b.value ∧
      content (drop_spec b n) = (content b).take (b.size - min n.natAbs b.size)) := by
  have hle : min n.natAbs b.size ≤ b.size := Nat.min_le_right _ _
  have hnot : ¬ n ≤ I32_MIN := not_le.mpr hmin
  have hclamp : (if n.natAbs > b.size then b.size else n.natAbs) = min n.natAbs b.size := by
    split <;> omega
  by_cases hneg : n < 0
  · have hspec : drop_spec b n =
        { b with size := b.size - min n.natAbs b.size, value := b.value + min n.natAbs b.size } := by
      unfold drop_spec
      rw [if_pos hneg, iterate_gdropFirst _ _ hle]
    have hmag : (-n).toNat % U32_MOD = n.natAbs := by
      simp only [I32_MIN, U32_MOD] at *
      omega
    refine ⟨?_, ?_, ?_, ?_, ?_, ?_⟩
    · unfold gdrop
      simp only [if_neg hnot, hneg, decide_True, if_true, hmag, hclamp]
      rw [hspec]
    · rw [hspec]
    · intro h
      rw [hspec]
      show b.size - min n.natAbs b.size = 0
      omega
    · rw [hspec]
    · intro _
      rw [hspec]
      exact ⟨rfl, content_drop_front b _ hle⟩
    · intro h
      omega
  · have hspec : drop_spec b n = { b with size := b.size - min n.natAbs b.size } := by
      unfold drop_spec
      rw [if_neg hneg, iterate_gdropLast _ _ hle]
    have hmag : n.toNat % U32_MOD = n.natAbs := by
      simp only [I32_MAX, U32_MOD] at *
      omega
    refine ⟨?_, ?_, ?_, ?_, ?_, ?_⟩
    · unfold gdrop
      simp only [if_neg hnot, hneg, decide_False, if_false, hmag, hclamp, Bool.false_eq_true]
      rw [hspec]
    · rw [hspec]
    · intro h
      rw [hspec]
      show b.size - min n.natAbs b.size = 0
      omega
    · rw [hspec]
    · intro h
      omega
    · intro _
      rw [hspec]
      exact ⟨rfl, content_drop_back b _⟩

/-- C15, witness: 7 elements dropped at the front of "hello" leave the empty
buffer. -/
theorem gdrop_spec_witness :
    gdrop ⟨memcpy malloc 5 0 [104, 101, 108, 108, 111], 5, 0, 5⟩ (-7) =
      .ok (drop_spec ⟨memcpy malloc 5 0 [104, 101, 108, 108, 111], 5, 0, 5⟩ (-7)) ∧
    (drop_spec ⟨memcpy malloc 5 0 [104, 101, 108, 108, 111], 5, 0, 5⟩ (-7)).size = 0 :=
  ⟨(gdrop_spec ⟨memcpy malloc 5 0 [104, 101, 108, 108, 111], 5, 0, 5⟩ (-7)
      (by decide) (by decide)).1,
   (gdrop_spec ⟨memcpy malloc 5 0 [104, 101, 108, 108, 111], 5, 0, 5⟩ (-7)
      (by decide) (by decide)).2.2.1 (by decide)⟩

/-! ## C16: `ginsertAt` of one element at the ends -/

theorem length_content (b : StringDyn) : (content b).length = b.size := by
  simp [content]

theorem memmove_zero (m : Mem) (cap dst src : Nat) : memmove m cap dst src 0 = m := by
  funext i
  unfold memmove
  have h : ¬ (dst ≤ i ∧ i < dst + 0 ∧ i < cap) := by omega
  simp only [if_neg h]

theorem store_eq_memcpy (m : Mem) (cap k v : Nat) : store m cap k v = memcpy m cap k [v] := by
  funext i
  unfold store memcpy
  by_cases h : i = k ∧ k < cap
  · have h2 : k ≤ i ∧ i < k + [v].length ∧ i < cap := by
      simp only [List.length_singleton]
      omega
    have h3 : i - k = 0 := by omega
    simp only [if_pos h, if_pos h2, h3, List.getElem?_cons_zero]
  · have h2 : ¬ (k ≤ i ∧ i < k + [v].length ∧ i < cap) := by
      simp only [List.length_singleton]
      omega
    simp only [if_neg h, if_neg h2]

theorem genlarge_Int_size (ct : Bool) (b b1 : StringDyn) (v : Int)
    (h : genlarge_Int ct b v = .ok b1) : b1.size = b.size := by
  unfold genlarge_Int at h
  by_cases h1 : ct = true ∧ v = 0
  · rw [if_pos h1] at h
    cases h
  · rw [if_neg h1] at h
    by_cases h2 : v ≤ I32_MIN
    · rw [if_pos h2] at h
      cases h
    · rw [if_neg h2] at h
      by_cases h3 : v < 0
      · simp only [h3, decide_True, if_true] at h
        cases h
        rfl
      · simp only [h3, decide_False, if_false, Bool.false_eq_true] at h
        cases h
        rfl

/-- Effect of `ginsertAt` of one element at index 0 on a buffer satisfying the
invariants that is full (the enlargement succeeding without overflow) or has
back slack. -/
theorem ginsertAt_Object_zero_post (ct : Bool) (b : StringDyn) (chr : Int) (hinv : Inv b)
    (hslack : b.size = b.capacity ∨ b.value + b.size < b.capacity)
    (hg : b.size = b.capacity →
      ∃ e, extra_size b.capacity 1 = .ok e ∧ b.capacity + max e 1024 < U32_MOD) :
    ∃ b1, ginsertAt_Object ct b 0 chr = .ok b1 ∧
      content b1 = some (toU8 chr) :: content b := by
  have hri : ∀ s, Range_index 0 s = 0 := fun s => Range_index_nat 0 s (by decide)
  have hpre : ¬ (ct = true ∧ ¬ 0 ≤ b.size) := by
    intro h
    omega
  have key : ∀ be : StringDyn, Inv be → content be = content b →
      be.value + be.size + 1 ≤ be.capacity →
      content { be with _value := store (memmove be._value be.capacity (be.value + 0 + 1)
                                   (be.value + 0) ((be.size + U32_MOD - 0) % U32_MOD))
                                   be.capacity (be.value + 0) (toU8 chr),
                        size := (be.size + 1) % U32_MOD } =
        some (toU8 chr) :: content b := by
    intro be hinve hcont hs
    have hn : (be.size + U32_MOD - 0) % U32_MOD = be.size - 0 := by
      have := hinve.1
      have := hinve.2
      simp only [U32_MOD] at *
      omega
    have hsz : (be.size + 1) % U32_MOD = be.size + [toU8 chr].length :=
      Nat.mod_eq_of_lt (by have := hinve.1; omega)
    rw [hn, hsz, store_eq_memcpy]
    have := content_insert_raw be [toU8 chr] 0 (by simpa using hs) (Nat.zero_le _)
    simp only [List.length_singleton] at this ⊢
    rw [this, hcont]
    simp
  by_cases h : b.size = b.capacity
  · obtain ⟨e, he, hcap⟩ := hg h
    obtain ⟨hne, he2⟩ := extra_size_ok _ _ _ he
    obtain ⟨be, hbe, hinv1, hcap1, hval, hsize, hcont⟩ :=
      genlarge_back_post ct b e hinv (by omega) hcap
    have hs : be.value + be.size + 1 ≤ be.capacity := by
      have := hinv.2
      omega
    unfold ginsertAt_Object
    simp only [hri, if_neg hpre, if_pos h, he, hbe, ite_self]
    exact ⟨_, rfl, key be hinv1 hcont hs⟩
  · have hs : b.value + b.size + 1 ≤ b.capacity := by
      rcases hslack with h1 | h1
      · exact absurd h1 h
      · omega
    unfold ginsertAt_Object
    simp only [hri, if_neg hpre, if_neg h, ite_self]
    exact ⟨_, rfl, key b hinv rfl hs⟩

set_option maxRecDepth 100000 in
/-- C16, counterexample: on the empty buffer of capacity 1, which satisfies
the invariants, `ginsertAt` at index 0 returns (there is back slack) while
`gprepend` raises "string size overflow" (there is no front slack and the
growth policy fails): the pair does not succeed on the same inputs. -/
theorem ginsertAt_zero_gprepend_differ :
    Inv ⟨malloc, 1, 0, 0⟩ ∧
    (∃ b1, ginsertAt_Object true ⟨malloc, 1, 0, 0⟩ 0 97 = .ok b1 ∧ content b1 = [some 97]) ∧
    gprepend_Object true ⟨malloc, 1, 0, 0⟩ 97 = .error .string_size_overflow :=
  ⟨by decide, ⟨_, rfl, by rfl⟩, by rfl⟩

/-- C16, amended: for every buffer satisfying the invariants and every
element, `ginsertAt(size, e)` and `gappend(e)` have the same outcome (the same
exception or the same buffer); `ginsertAt(0, e)` and `gprepend(e)` both return
and give the same content `e :: old` and the same size when the buffer is
full or has back slack and each of the two enlargements, where it is needed
(back: `size == capacity`, front: `view_offset == 0`), succeeds without
overflow of the `U32` capacity. -/
theorem ginsertAt_Object_ends (ct : Bool) (b : StringDyn) (chr : Int) (hinv : Inv b) :
    ginsertAt_Object ct b (b.size : Int) chr = gappend_Object ct b chr ∧
    ((b.size = b.capacity ∨ b.value + b.size < b.capacity) →
     (b.size = b.capacity →
       ∃ e, extra_size b.capacity 1 = .ok e ∧ b.capacity + max e 1024 < U32_MOD) →
     (b.value = 0 →
       ∃ e, extra_size b.capacity 1 = .ok e ∧ b.capacity + max e 1024 < U32_MOD) →
     ∃ b1 b2, ginsertAt_Object ct b 0 chr = .ok b1 ∧ gprepend_Object ct b chr = .ok b2 ∧
       content b1 = content b2 ∧ b1.size = b2.size ∧
       content b1 = some (toU8 chr) :: content b) := by
  constructor
  · have hri : Range_index (b.size : Int) b.size = b.size :=
      Range_index_nat _ _ (by have := hinv.1; have := hinv.2; omega)
    have hpre : ¬ (ct = true ∧ ¬ b.size ≤ b.size) := by
      intro h
      omega
    have hcnt : ∀ s : Nat, (s + U32_MOD - s) % U32_MOD = 0 := by
      intro s
      have : s + U32_MOD - s = U32_MOD := by omega
      rw [this, Nat.mod_self]
    unfold ginsertAt_Object gappend_Object
    simp only [hri, if_neg hpre]
    by_cases h : b.size = b.capacity
    · simp only [if_pos h]
      cases he : extra_size b.capacity 1 with
      | error x => rfl
      | ok e =>
        simp only []
        cases hbe : genlarge_Int ct b (e : Int) with
        | error x => rfl
        | ok be =>
          have hsize := genlarge_Int_size ct b be _ hbe
          simp only [hsize, hri, ite_self, hcnt, memmove_zero]
    · simp only [if_neg h, hri, ite_self, hcnt, memmove_zero]
  · intro hslack hback hfront
    obtain ⟨b1, hb1, hc1⟩ := ginsertAt_Object_zero_post ct b chr hinv hslack hback
    obtain ⟨b2, hb2, -, hc2⟩ := gprepend_Char_post ct b chr hinv hfront
    refine ⟨b1, b2, hb1, hb2, by rw [hc1, hc2], ?_, hc1⟩
    rw [← length_content b1, ← length_content b2, hc1, hc2]

set_option maxRecDepth 100000 in
/-- C16, witness: the full buffer "hi" of capacity 8 at offset 0, where both
enlargements are needed and succeed. -/
theorem ginsertAt_Object_ends_witness :
    ginsertAt_Object true ⟨memcpy malloc 8 0 [104, 105, 106, 107, 108, 109, 110, 111], 8, 0, 8⟩
        ((8 : Nat) : Int) 120 =
      gappend_Object true ⟨memcpy malloc 8 0 [104, 105, 106, 107, 108, 109, 110, 111], 8, 0, 8⟩
        120 ∧
    ∃ b1 b2, ginsertAt_Object true
        ⟨memcpy malloc 8 0 [104, 105, 106, 107, 108, 109, 110, 111], 8, 0, 8⟩ 0 120 = .ok b1 ∧
      gprepend_Object true
        ⟨memcpy malloc 8 0 [104, 105, 106, 107, 108, 109, 110, 111], 8, 0, 8⟩ 120 = .ok b2 ∧
      content b1 = content b2 ∧ b1.size = b2.size ∧
      content b1 = some (toU8 120) ::
        content ⟨memcpy malloc 8 0 [104, 105, 106, 107, 108, 109, 110, 111], 8, 0, 8⟩ :=
  ⟨(ginsertAt_Object_ends true
      ⟨memcpy malloc 8 0 [104, 105, 106, 107, 108, 109, 110, 111], 8, 0, 8⟩ 120 (by decide)).1,
   (ginsertAt_Object_ends true
      ⟨memcpy malloc 8 0 [104, 105, 106, 107, 108, 109, 110, 111], 8, 0, 8⟩ 120 (by decide)).2
      (Or.inl rfl) (fun _ => ⟨4, by rfl, by decide⟩) (fun _ => ⟨4, by rfl, by decide⟩)⟩

/-! ## C17: `gappend` of one element followed by `gdropLast` -/

theorem round_cases (s : Bool) (m : Nat) (e : Int) :
    F64.round s m e = F64.inf s ∨ ∃ q qe, F64.round s m e = F64.fin s q qe := by
  unfold F64.round
  by_cases h0 : m = 0
  · rw [if_pos h0]
    exact Or.inr ⟨0, 0, rfl⟩
  · rw [if_neg h0]
    simp only []
    split_ifs <;> first | exact Or.inl rfl | exact Or.inr ⟨_, _, rfl⟩

/-- The amount `capacity * x` for a double `x ≥ 0` converts to a nonnegative
`I32`. -/
theorem toI32_mul_nonneg (c m : Nat) (e v : Int)
    (h : F64.toI32 (F64.mul (F64.ofNat c) (F64.fin false m e)) = .ok v) : 0 ≤ v := by
  unfold F64.ofNat at h
  rcases round_cases false c 0 with h1 | ⟨q, qe, h1⟩
  · rw [h1] at h
    simp only [F64.mul] at h
    split_ifs at h <;> simp [F64.toI32] at h
  · rw [h1] at h
    simp only [F64.mul, Bool.xor_false] at h
    rcases round_cases false (q * m) (qe + e) with h2 | ⟨q2, qe2, h2⟩
    · rw [h2] at h
      simp [F64.toI32] at h
    · rw [h2] at h
      simp only [F64.toI32, Bool.false_eq_true, if_false] at h
      split_ifs at h <;>
        first
        | (cases h; omega)
        | (cases h; exact Int.natCast_nonneg _)

set_option maxRecDepth 100000 in
theorem sub_rate_one :
    F64.sub STRING_GROWTH_RATE (F64.ofNat 1) = F64.fin false 5566755384204594 (-53) := by rfl

set_option maxRecDepth 100000 in
theorem lt_one_rate : F64.lt (F64.ofNat 1) STRING_GROWTH_RATE = true := by rfl

/-- `genlarge` by the growth rate: the `PRE` holds and the back branch is
taken. -/
theorem genlarge_Float_rate (ct : Bool) (b : StringDyn) :
    genlarge_Float ct b STRING_GROWTH_RATE =
      match F64.toI32 (F64.mul (F64.ofNat b.capacity) (F64.fin false 5566755384204594 (-53))) with
      | .ok v => genlarge_Int ct b v
      | .error e => .error e := by
  unfold genlarge_Float
  simp only [lt_one_rate, or_true, not_true_eq_false, and_false, if_false, if_true, sub_rate_one]

/-- An enlargement by the growth rate that returns with a capacity no smaller
keeps the invariants, the content, the view offset and the size, and leaves
back slack. -/
theorem genlarge_Float_rate_post (ct : Bool) (b be : StringDyn) (hinv : Inv b)
    (h : genlarge_Float ct b STRING_GROWTH_RATE = .ok be) (hcap : b.capacity ≤ be.capacity) :
    Inv be ∧ content be = content b ∧ be.value = b.value ∧ be.size = b.size ∧
      be.value + be.size < be.capacity := by
  rw [genlarge_Float_rate] at h
  cases hv : F64.toI32 (F64.mul (F64.ofNat b.capacity) (F64.fin false 5566755384204594 (-53))) with
  | error x => simp [hv] at h
  | ok v =>
    simp only [hv] at h
    have h0 := toI32_mul_nonneg _ _ _ _ hv
    have hmin : I32_MIN < v := by
      simp only [I32_MIN]
      omega
    have hmax := (toI32_ok _ _ hv).2
    have hz : ct = false ∨ v ≠ 0 := by
      by_cases hc : ct = false
      · exact Or.inl hc
      · right
        intro hv0
        unfold genlarge_Int at h
        have hct : ct = true := by
          cases ct
          · exact absurd rfl hc
          · rfl
        rw [if_pos ⟨hct, hv0⟩] at h
        cases h
    rw [genlarge_Int_eq ct b v hz hmin] at h
    have hnn : ¬ v < 0 := by omega
    simp only [hnn, if_false] at h
    injection h with h
    subst h
    obtain ⟨hu, hle⟩ := hinv
    generalize hM : max v.natAbs 1024 = M at hcap
    have hMb : 1024 ≤ M ∧ M ≤ 2147483647 := by
      simp only [I32_MAX] at hmax
      omega
    have hc : b.capacity ≤ (b.capacity + M) % U32_MOD := hcap
    have hnw : b.capacity + M < U32_MOD := by
      simp only [U32_MOD] at *
      omega
    rw [Nat.mod_eq_of_lt hnw]
    refine ⟨⟨hnw, ?_⟩, ?_, rfl, rfl, ?_⟩
    · show b.value + b.size ≤ b.capacity + M
      omega
    · apply List.ext_getElem?
      intro k
      rw [getElem?_content, getElem?_content]
      by_cases hk : k < b.size
      · simp only [hk, if_true,
          load_realloc_grow _ _ _ _ (by omega : b.capacity ≤ b.capacity + M)]
      · simp only [hk, if_false]
    · show b.value + b.size < b.capacity + M
      omega

/-- The store and the field update that end `gappend` of one element, on a
buffer with back slack. -/
theorem content_append_raw (b : StringDyn) (v : Nat) (hinv : Inv b)
    (hs : b.value + b.size < b.capacity) :
    content { b with _value := store b._value b.capacity (b.value + b.size) v,
                     size := (b.size + 1) % U32_MOD } = content b ++ [some v] := by
  have hsz : (b.size + 1) % U32_MOD = b.size + 1 :=
    Nat.mod_eq_of_lt (by have := hinv.1; omega)
  rw [hsz]
  apply List.ext_getElem?
  intro k
  rw [getElem?_content]
  simp only [load_store]
  by_cases hk : k < b.size
  · rw [List.getElem?_append_left (by rw [length_content]; exact hk), getElem?_content]
    have h1 : k < b.size + 1 := by omega
    have h2 : ¬ (b.value + k = b.value + b.size ∧ b.value + b.size < b.capacity) := by omega
    simp only [hk, h1, h2, if_true, if_false]
  · rw [List.getElem?_append_right (by rw [length_content]; omega), length_content]
    by_cases hk2 : k = b.size
    · subst hk2
      simp [hs]
    · have h1 : ¬ k < b.size + 1 := by omega
      have h3 : k - b.size ≠ 0 := by omega
      simp only [h1, if_false]
      cases hj : k - b.size with
      | zero => exact absurd hj h3
      | succ j => rfl

set_option maxRecDepth 100000 in
/-- C17, counterexample: the full buffer of capacity 3000000000 (every element
0) satisfies the invariants; `gappend` returns, but the enlargement by
1854102000 wraps the `U32` capacity around to 559134704, the reallocation
drops the elements from 559134704 on, and after `gdropLast` the content is
not the original one (and the capacity has not grown). -/
theorem gappend_Char_gdropLast_wraps :
    Inv ⟨fun _ => some 0, 3000000000, 0, 3000000000⟩ ∧
    ∃ b1, gappend_Char true ⟨fun _ => some 0, 3000000000, 0, 3000000000⟩ 97 = .ok b1 ∧
      (gdropLast b1).size = 3000000000 ∧ (gdropLast b1).capacity = 559134704 ∧
      (content (gdropLast b1))[559134704]? = some none ∧
      (content ⟨fun _ => some 0, 3000000000, 0, 3000000000⟩)[559134704]? = some (some 0) ∧
      content (gdropLast b1) ≠ content ⟨fun _ => some 0, 3000000000, 0, 3000000000⟩ := by
  refine ⟨by decide, ?_⟩
  have h1 : ∃ b1, gappend_Char true ⟨fun _ => some 0, 3000000000, 0, 3000000000⟩ 97 = .ok b1 ∧
      (gdropLast b1).size = 3000000000 ∧ (gdropLast b1).capacity = 559134704 ∧
      (gdropLast b1).value = 0 ∧
      load (gdropLast b1)._value 559134704 559134704 = none := ⟨_, rfl, rfl, rfl, rfl, rfl⟩
  obtain ⟨b1, hb1, hs1, hc1, hv1, hl1⟩ := h1
  have e1 : (content (gdropLast b1))[559134704]? = some none := by
    rw [getElem?_content, hs1, hc1, hv1]
    simp only [Nat.zero_add]
    rw [hl1]
    rfl
  have e2 : (content ⟨fun _ => some 0, 3000000000, 0, 3000000000⟩)[559134704]? =
      some (some 0) := by
    rw [getElem?_content]
    rfl
  refine ⟨b1, hb1, hs1, hc1, e1, e2, ?_⟩
  intro h
  rw [h, e2] at e1
  cases e1

/-- C17, amended: for every buffer satisfying the invariants that is full or
has back slack and every element, provided that, when the buffer is full, the
enlargement by the growth rate returns and does not wrap the `U32` capacity
around: `gappend` returns, and after `gdropLast` the size, the content and
the view offset are those before the `gappend`, the capacity being no
smaller. -/
theorem gappend_Char_gdropLast (ct : Bool) (b : StringDyn) (c : Int) (hinv : Inv b)
    (hslack : b.size = b.capacity ∨ b.value + b.size < b.capacity)
    (hg : b.size = b.capacity →
      ∃ be, genlarge_Float ct b STRING_GROWTH_RATE = .ok be ∧ b.capacity ≤ be.capacity) :
    ∃ b1, gappend_Char ct b c = .ok b1 ∧
      (gdropLast b1).size = b.size ∧ content (gdropLast b1) = content b ∧
      (gdropLast b1).value = b.value ∧ b.capacity ≤ (gdropLast b1).capacity := by
  have key : ∀ be : StringDyn, Inv be → content be = content b → be.value = b.value →
      be.size = b.size → be.value + be.size < be.capacity → b.capacity ≤ be.capacity →
      ∀ b1 : StringDyn,
        b1 = { be with _value := store be._value be.capacity (be.value + be.size) (toU8 c),
                       size := (be.size + 1) % U32_MOD } →
        (gdropLast b1).size = b.size ∧ content (gdropLast b1) = content b ∧
        (gdropLast b1).value = b.value ∧ b.capacity ≤ (gdropLast b1).capacity := by
    intro be hinve hcont hval hsize hs hcap b1 hb1
    have hraw := content_append_raw be (toU8 c) hinve hs
    rw [← hb1] at hraw
    have hsz : (be.size + 1) % U32_MOD = be.size + 1 :=
      Nat.mod_eq_of_lt (by have := hinve.1; omega)
    have hs1 : b1.size = be.size + 1 := by rw [hb1]; exact hsz
    have hv1 : b1.value = be.value := by rw [hb1]
    have hc1 : b1.capacity = be.capacity := by rw [hb1]
    have hne : b1.size ≠ 0 := by omega
    have hd : gdropLast b1 = { b1 with size := b1.size - 1 } := by
      unfold gdropLast
      simp only [if_pos hne]
    rw [hd]
    refine ⟨by show b1.size - 1 = b.size; omega, ?_, by show b1.value = b.value; omega,
      by show b.capacity ≤ b1.capacity; omega⟩
    rw [content_drop_back b1 1, hraw, hs1, Nat.add_sub_cancel,
      List.take_left' (length_content be), hcont]
  by_cases h : b.size = b.capacity
  · obtain ⟨be, hbe, hcap⟩ := hg h
    obtain ⟨hinv1, hcont, hval, hsize, hs⟩ := genlarge_Float_rate_post ct b be hinv hbe hcap
    unfold gappend_Char
    simp only [if_pos h, hbe]
    exact ⟨_, rfl, key be hinv1 hcont hval hsize hs hcap _ rfl⟩
  · have hs : b.value + b.size < b.capacity := by
      rcases hslack with h1 | h1
      · exact absurd h1 h
      · exact h1
    unfold gappend_Char
    simp only [if_neg h]
    exact ⟨_, rfl, key b hinv rfl rfl rfl hs (Nat.le_refl _) _ rfl⟩

set_option maxRecDepth 100000 in
/-- C17, witness: the full buffer of capacity 8, enlarged to 1032 by the
`gappend`. -/
theorem gappend_Char_gdropLast_witness :
    ∃ b1, gappend_Char true
        ⟨memcpy malloc 8 0 [104, 105, 106, 107, 108, 109, 110, 111], 8, 0, 8⟩ 120 = .ok b1 ∧
      (gdropLast b1).size = 8 ∧
      content (gdropLast b1) =
        content ⟨memcpy malloc 8 0 [104, 105, 106, 107, 108, 109, 110, 111], 8, 0, 8⟩ ∧
      (gdropLast b1).value = 0 ∧ 8 ≤ (gdropLast b1).capacity :=
  gappend_Char_gdropLast true
    ⟨memcpy malloc 8 0 [104, 105, 106, 107, 108, 109, 110, 111], 8, 0, 8⟩ 120 (by decide)
    (Or.inl rfl) (fun _ => ⟨_, rfl, by decide⟩)

/-! ## C18: element given as a character and as an object -/

set_option maxRecDepth 100000 in
/-- C18, failing input: on the full buffer "hi" of capacity 2, with the same
code 97, `gappend(StringDyn, Char)` returns (it grows by the factor: capacity
1026, content "hia") while `gappend(StringDyn, Object)` raises "string size
overflow" (it grows by `extra_size(2, 1)`); with the contracts compiled out
the same happens on a full buffer of capacity 1 (capacity 1025 against
"string size overflow").  `gprepend` is the same function for both. -/
theorem gappend_Char_Object_differ :
    content ⟨memcpy malloc 2 0 [104, 105], 2, 0, 2⟩ = [some 104, some 105] ∧
    (∃ b1, gappend_Char true ⟨memcpy malloc 2 0 [104, 105], 2, 0, 2⟩ 97 = .ok b1 ∧
      b1.capacity = 1026 ∧ content b1 = [some 104, some 105, some 97]) ∧
    gappend_Object true ⟨memcpy malloc 2 0 [104, 105], 2, 0, 2⟩ 97 =
      .error .string_size_overflow ∧
    (∃ b2, gappend_Char false ⟨malloc, 1, 0, 1⟩ 97 = .ok b2 ∧ b2.capacity = 1025) ∧
    gappend_Object false ⟨malloc, 1, 0, 1⟩ 97 = .error .string_size_overflow ∧
    gprepend_Char = gprepend_Object :=
  ⟨by rfl, ⟨_, rfl, rfl, by rfl⟩, by rfl, ⟨_, rfl, rfl⟩, by rfl, rfl⟩

/-! ## C19: `gclear(StringDyn)` -/

/-- C19: for every buffer, `gclear` sets the size and the view offset to 0 and
leaves the capacity and the allocation unchanged, so that `capacity ≥ size`
and `view_offset ≤ capacity - size` hold afterwards, whatever the state
before. -/
theorem gclear_spec (b : StringDyn) :
    (gclear b).size = 0 ∧ (gclear b).value = 0 ∧
    (gclear b).capacity = b.capacity ∧ (gclear b)._value = b._value ∧
    (gclear b).capacity ≥ (gclear b).size ∧
    (gclear b).value ≤ (gclear b).capacity - (gclear b).size :=
  ⟨rfl, rfl, rfl, rfl, Nat.zero_le _, Nat.zero_le _⟩

/-! ## C20: the growth policy `extra_size` -/

theorem growth_factor_iterate (k : Nat) :
    growth_factor k = Nat.iterate (fun f => F64.mul f STRING_GROWTH_RATE) k STRING_GROWTH_RATE := by
  induction k with
  | zero => rfl
  | succ k ih =>
    rw [Function.iterate_succ_apply', ← ih]
    rfl

theorem growth_factor_add (k j : Nat) :
    growth_factor (j + k) =
      Nat.iterate (fun f => F64.mul f STRING_GROWTH_RATE) j (growth_factor k) := by
  rw [growth_factor_iterate, growth_factor_iterate, Function.iterate_add_apply]

/-- The factor after 335 turns. -/
theorem growth_factor_335 : growth_factor 335 = F64.fin false 5412761898958377 181 := by
  rw [growth_factor_iterate]
  decide!

/-- The factor after 670 turns. -/
theorem growth_factor_670 : growth_factor 670 = F64.fin false 8041191866076829 (413) := by
  rw [show (670 : Nat) = 335 + 335 from rfl, growth_factor_add, growth_factor_335]
  decide!

/-- The factor after 1005 turns. -/
theorem growth_factor_1005 : growth_factor 1005 = F64.fin false 5972991961784182 (646) := by
  rw [show (1005 : Nat) = 335 + 670 from rfl, growth_factor_add, growth_factor_670]
  decide!

/-- The factor after 1340 turns. -/
theorem growth_factor_1340 : growth_factor 1340 = F64.fin false 8873468901058472 (878) := by
  rw [show (1340 : Nat) = 335 + 1005 from rfl, growth_factor_add, growth_factor_1005]
  decide!

/-- After 1474 turns the factor has overflowed to the infinity. -/
theorem growth_factor_1474 : growth_factor 1474 = F64.inf false := by
  rw [show (1474 : Nat) = 134 + 1340 from rfl, growth_factor_add, growth_factor_1340]
  decide!

set_option maxRecDepth 100000 in
theorem ofNat_one : F64.ofNat 1 = F64.fin false 4503599627370496 (-52) := by rfl

/-- Once the factor is the infinity the loop of `extra_size` stops: the
product is the infinity, or NaN when the capacity is 0. -/
theorem lt_grown_inf (c s : Nat) :
    F64.lt (grown c (F64.inf false)) (F64.ofNat s) = false := by
  have hsub : F64.sub (F64.inf false) (F64.ofNat 1) = F64.inf false := by
    rw [ofNat_one]
    rfl
  unfold grown
  rw [hsub]
  unfold F64.ofNat
  rcases round_cases false c 0 with h1 | ⟨q, qe, h1⟩ <;>
    rcases round_cases false s 0 with h2 | ⟨q2, qe2, h2⟩ <;>
    rw [h1, h2] <;> simp only [F64.mul] <;> first | rfl | (split_ifs <;> rfl)

/-- The loop of `extra_size` from the factor of turn `i` on: it stops at the
least turn `k ≥ i` whose product is not below the size, at the latest at turn
1474. -/
theorem extra_size_loop_spec (c s : Nat) (fuel i : Nat) (hi : i ≤ 1474) (hf : 1474 < i + fuel) :
    ∃ k, i ≤ k ∧ k ≤ 1474 ∧
      (∀ j, i ≤ j → j < k → F64.lt (grown c (growth_factor j)) (F64.ofNat s) = true) ∧
      F64.lt (grown c (growth_factor k)) (F64.ofNat s) = false ∧
      extra_size_loop c s fuel (growth_factor i) = some (growth_factor k) := by
  induction fuel generalizing i with
  | zero => omega
  | succ fuel ih =>
    by_cases hc : F64.lt (grown c (growth_factor i)) (F64.ofNat s) = true
    · have hne : i ≠ 1474 := by
        intro h
        rw [h, growth_factor_1474, lt_grown_inf] at hc
        cases hc
      obtain ⟨k, hk1, hk2, hk3, hk4, hk5⟩ := ih (i + 1) (by omega) (by omega)
      refine ⟨k, by omega, hk2, ?_, hk4, ?_⟩
      · intro j hj1 hj2
        by_cases hji : j = i
        · rw [hji]
          exact hc
        · exact hk3 j (by omega) hj2
      · have hc2 : F64.lt (F64.mul (F64.ofNat c) (F64.sub (growth_factor i) (F64.ofNat 1)))
            (F64.ofNat s) = true := hc
        unfold extra_size_loop
        rw [if_pos hc2]
        exact hk5
    · have hc2 : ¬ F64.lt (F64.mul (F64.ofNat c) (F64.sub (growth_factor i) (F64.ofNat 1)))
          (F64.ofNat s) = true := hc
      refine ⟨i, Nat.le_refl _, hi, ?_, by simpa using hc, ?_⟩
      · intro j hj1 hj2
        omega
      · unfold extra_size_loop
        rw [if_neg hc2]

set_option maxRecDepth 100000 in
/-- C20, counterexample: for capacity 68825489 and increment 111361982 the
policy in exact arithmetic has `k = 2` and
`extra = trunc(68825489 * (1.618034^2 - 1)) = 111361983`, greater than the
increment, so it returns 111361983; in binary64 the product is rounded to
`111361982.99999999`, truncated to 111361982, and `extra_size` raises "string
size overflow".  One increment higher the exact policy fails and `extra_size`
returns 222723967.  For capacity 4000000000 and increment 1 the value
2472136000 is greater than the increment but is not an `I32`: the conversion
is undefined and nothing is returned. -/
theorem extra_size_rounding :
    extra_spec 68825489 111361982 = some 111361983 ∧
    extra_size 68825489 111361982 = .error .string_size_overflow ∧
    extra_spec 68825489 111361983 = none ∧
    extra_size 68825489 111361983 = .ok 222723967 ∧
    extra_spec 4000000000 1 = some 2472136000 ∧
    extra_size 4000000000 1 = .error .undefined :=
  ⟨by decide, by rfl, by decide, by rfl, by decide, by rfl⟩

/-- C20, amended: for every capacity and every increment `extra_size`
terminates (within 1475 turns of its loop); with the powers
`growth_factor k = g^(k+1)` of `g = 1.618034` and the products
`capacity*(g^(k+1) - 1)` computed in binary64, and `k` the least turn whose
product is not below the increment, it converts that product to `I32`
(undefined when it is NaN or out of range), returns the result `extra` when
`extra > 0` and `extra > min_increment`, and raises "string size overflow"
otherwise; every returned value is strictly greater than the increment and
is an `I32`. -/
theorem extra_size_spec (capacity size : Nat) :
    ∃ k, k ≤ 1474 ∧
      (∀ j, j < k → F64.lt (grown capacity (growth_factor j)) (F64.ofNat size) = true) ∧
      F64.lt (grown capacity (growth_factor k)) (F64.ofNat size) = false ∧
      extra_size capacity size =
        (match F64.toI32 (grown capacity (growth_factor k)) with
         | .error e => .error e
         | .ok extra =>
           if 0 < extra ∧ (size : Int) < extra then .ok extra.toNat
           else .error .string_size_overflow) ∧
      extra_size capacity size ≠ .error .fuel ∧
      ∀ e, extra_size capacity size = .ok e → size < e ∧ e ≤ 2147483647 := by
  obtain ⟨k, -, hk2, hk3, hk4, hk5⟩ :=
    extra_size_loop_spec capacity size 2048 0 (by omega) (by omega)
  have hk5' : extra_size_loop capacity size 2048 STRING_GROWTH_RATE = some (growth_factor k) := hk5
  have heq : extra_size capacity size =
      (match F64.toI32 (grown capacity (growth_factor k)) with
       | .error e => .error e
       | .ok extra =>
         if 0 < extra ∧ (size : Int) < extra then .ok extra.toNat
         else .error .string_size_overflow) := by
    unfold extra_size
    rw [hk5']
    show (match F64.toI32 (grown capacity (growth_factor k)) with
       | .error e => .error e
       | .ok extra =>
         if 0 < extra ∧ size < extra.toNat % U32_MOD then .ok extra.toNat
         else .error .string_size_overflow : Except Err Nat) = _
    cases hv : F64.toI32 (grown capacity (growth_factor k)) with
    | error x => rfl
    | ok extra =>
      have hb := toI32_ok _ _ hv
      simp only []
      have hiff : (0 < extra ∧ size < extra.toNat % U32_MOD) ↔ (0 < extra ∧ (size : Int) < extra) := by
        simp only [I32_MAX, I32_MIN, U32_MOD] at *
        omega
      simp only [hiff]
  refine ⟨k, hk2, fun j hj => hk3 j (Nat.zero_le _) hj, hk4, heq, ?_, fun e he => extra_size_ok _ _ _ he⟩
  rw [heq]
  cases hv : F64.toI32 (grown capacity (growth_factor k)) with
  | error x =>
    simp only []
    intro h
    injection h with h
    have hx : F64.toI32 (grown capacity (growth_factor k)) ≠ .error .fuel := by
      cases hg : grown capacity (growth_factor k) with
      | nan => simp [F64.toI32]
      | inf s => simp [F64.toI32]
      | fin s m e =>
        simp only [F64.toI32]
        split_ifs <;> simp
    rw [hv, h] at hx
    exact hx rfl
  | ok extra =>
    simp only []
    split_ifs <;> simp

end COS
